import Mathlib

/-!
concurrentq: ring-buffer deque (`ConDequeue`) and bounded queue (`ConLimitQueue`).

Shallow embedding of `src/con_dequeue.go`, `src/con_limit_queue.go` and, for
`CoDequeue`, the constructor, index helpers, growth and `BPush`/`At` of
`src/codequeue.go`.

Conventions of the embedding.

* Every method body runs under the receiver's lock, so a call is one atomic
  transition of the receiver's state; the locks themselves are not modelled.
* A Go `panic` (explicit, or a run-time index / slice / `make` failure) is the
  `Outcome.fault` result; it carries the state at the moment of the panic.
* `interface{}` values are an arbitrary type `α` with a distinguished `nil`,
  the `default` of `Inhabited α`.
* Go `int` is taken to be 64 bits wide.  The fields `cap`, `size`, `head`,
  `tail` are kept as `Int`; they never exceed the length of an allocated
  slice, which is far below `2^62`, so the arithmetic on them is taken without
  wrap-around (`&` is two's-complement `Int.land`, `>> 1` is `/ 2`).  Integers
  chosen freely by the caller are 64-bit: the loop of `nextTwoPower` is
  modelled with wrap-around (`wrap64`) and fuel, and the negation of a
  `Rotate` argument is `goNeg`.
* A constructor allocates a slice of a length chosen by the caller; that is
  `makeslice`, which panics for a negative length and for a length above
  `maxSliceLen` as the Go run time does.  The other allocations (`make` in
  `resize` and `NPop`) ask for at most twice the length of a slice that already
  exists; there only memory exhaustion could fail, which is not modelled.
-/

set_option autoImplicit false
set_option linter.unusedSectionVars false
set_option linter.unnecessarySeqFocus false

namespace ConcurrentQ

/-! ## Definitions -/

/-- Result of a call on a state of type `σ`: normal return with the new state
and the returned value, or a panic together with the state reached when it
was raised. -/
inductive Outcome (σ β : Type) where
  | ret (s : σ) (v : β)
  | fault (s : σ)
  deriving DecidableEq, Repr

namespace Outcome

/-- Sequencing: continue with `f` after a normal return, propagate a panic. -/
def andThen {σ β γ : Type} (o : Outcome σ β) (f : σ → β → Outcome σ γ) : Outcome σ γ :=
  match o with
  | ret s v => f s v
  | fault s => fault s

/-- The state carried by an outcome. -/
def state {σ β : Type} : Outcome σ β → σ
  | ret s _ => s
  | fault s => s

/-- The returned value, if the call returned. -/
def value? {σ β : Type} : Outcome σ β → Option β
  | ret _ v => some v
  | fault _ => none

/-- Whether the call panicked. -/
def failed {σ β : Type} : Outcome σ β → Bool
  | ret _ _ => false
  | fault _ => true

end Outcome

/-- Go constant `_MinCap`. -/
def _MinCap : Int := 32

/-- Go constant `_MinShrinkThreshold`. -/
def _MinShrinkThreshold : Int := 65536

/-- Reduction of a mathematical integer to a 64-bit two's-complement `int`. -/
def wrap64 (x : Int) : Int := (x + 2 ^ 63) % 2 ^ 64 - 2 ^ 63

/-- Go negation `-n` of a 64-bit `int` (the minimum value is its own
negation). -/
def goNeg (n : Int) : Int := wrap64 (-n)

/-- Go `make([]interface{}, n)` for a length bounded by the length of an
existing slice: panics (here `none`) for negative `n`, else a slice of `n` nil
values. -/
def make {α : Type} [Inhabited α] (n : Int) : Option (List α) :=
  if 0 ≤ n then some (List.replicate n.toNat default) else none

/-- Largest length the Go run time accepts for a slice of `interface{}` on a
64-bit platform: `makeslice` panics once `16 * n` bytes exceed
`maxAlloc = 2^48`. -/
def maxSliceLen : Int := 2 ^ 44

/-- Go `make([]interface{}, n)` for a caller-chosen length, with the length
check of the run time's `makeslice`: panics (here `none`) for negative `n` and
for `n` above `maxSliceLen`, else a slice of `n` nil values. -/
def makeslice {α : Type} [Inhabited α] (n : Int) : Option (List α) :=
  if 0 ≤ n ∧ n ≤ maxSliceLen then some (List.replicate n.toNat default) else none

/-- Go slice expression `s[lo:hi]`; out-of-range bounds panic (`none`). -/
def slice {α : Type} (s : List α) (lo hi : Int) : Option (List α) :=
  if 0 ≤ lo ∧ lo ≤ hi ∧ hi ≤ s.length then some ((s.take hi.toNat).drop lo.toNat) else none

/-- Go builtin `copy(dst, src)`: overwrites the first `min(len dst, len src)`
elements of `dst`; the result is the new contents of `dst`. -/
def copy {α : Type} (dst src : List α) : List α :=
  src.take dst.length ++ dst.drop src.length

/-- Number of elements moved by `copy(dst, src)`. -/
def copyCount {α : Type} (dst src : List α) : Nat := min dst.length src.length

/-- Index read `s[i]` with Go's bounds check. -/
def getI {α : Type} (s : List α) (i : Int) : Option α :=
  if 0 ≤ i then s[i.toNat]? else none

/-- Index write `s[i] = x` with Go's bounds check. -/
def setI {α : Type} (s : List α) (i : Int) (x : α) : Option (List α) :=
  if 0 ≤ i ∧ i < s.length then some (s.set i.toNat x) else none

/-- The fields of the Go struct `ConDequeue` (the mutex left out). -/
structure ConDequeue (α : Type) where
  buf : List α
  cap : Int
  size : Int
  head : Int
  tail : Int
  deriving DecidableEq, Repr

/-- Loop of `nextTwoPower`: `for m < n { m <<= 1 }` on 64-bit ints; `none`
when the fuel runs out before the loop exits. -/
def nextTwoPowerLoop : Nat → Int → Int → Option Int
  | 0, _, _ => none
  | fuel + 1, m, n => if m < n then nextTwoPowerLoop fuel (wrap64 (m * 2)) n else some m

/-- Go `nextTwoPower`. -/
def nextTwoPower (fuel : Nat) (n : Int) : Option Int :=
  nextTwoPowerLoop fuel 32 n

/-- Go `NewConDequeue`; `none` when the call does not return a deque. -/
def NewConDequeue {α : Type} [Inhabited α] (fuel : Nat) (cap : Int) : Option (ConDequeue α) :=
  (if cap < _MinCap then some _MinCap else nextTwoPower fuel cap).bind fun cap =>
    (makeslice cap).bind fun buf =>
      some { buf := buf, cap := cap, size := 0, head := 0, tail := 0 }

namespace ConDequeue

variable {α : Type} [Inhabited α]

/-- Go `(*ConDequeue).Len`. -/
def Len (q : ConDequeue α) : Int := q.size

/-- Go `(*ConDequeue).prev`: `(idx - 1) & (q.cap - 1)`. -/
def prev (q : ConDequeue α) (idx : Int) : Int := Int.land (idx - 1) (q.cap - 1)

/-- Go `(*ConDequeue).next`: `(idx + 1) & (q.cap - 1)`. -/
def next (q : ConDequeue α) (idx : Int) : Int := Int.land (idx + 1) (q.cap - 1)

/-- Read `q.buf[i]`. -/
def rd (q : ConDequeue α) (i : Int) : Outcome (ConDequeue α) α :=
  match getI q.buf i with
  | some x => .ret q x
  | none => .fault q

/-- Write `q.buf[i] = x`. -/
def wr (q : ConDequeue α) (i : Int) (x : α) : Outcome (ConDequeue α) Unit :=
  match setI q.buf i x with
  | some b => .ret { q with buf := b } ()
  | none => .fault q

/-- Go `(*ConDequeue).resize`. -/
def resize (q : ConDequeue α) (shrink : Bool) : Outcome (ConDequeue α) Unit :=
  if shrink = true ∧ q.cap = _MinCap then .ret q ()
  else
    let q1 : ConDequeue α := { q with cap := if shrink then q.cap / 2 else q.cap * 2 }
    match make q1.cap with
    | none => .fault q1
    | some newBuffer =>
      if q1.tail > q1.head then
        match slice q1.buf q1.head q1.tail with
        | none => .fault q1
        | some s => .ret { q1 with buf := copy newBuffer s, head := 0, tail := q1.size } ()
      else
        match slice q1.buf q1.head q1.buf.length with
        | none => .fault q1
        | some s1 =>
          let n : Nat := copyCount newBuffer s1
          let b1 := copy newBuffer s1
          match slice q1.buf 0 q1.tail with
          | none => .fault q1
          | some s2 =>
            .ret { q1 with buf := b1.take n ++ copy (b1.drop n) s2, head := 0, tail := q1.size } ()

/-- Go `(*ConDequeue).growIfNeeded`. -/
def growIfNeeded (q : ConDequeue α) : Outcome (ConDequeue α) Unit :=
  if q.size = q.cap then q.resize false else .ret q ()

/-- Go `(*ConDequeue).shrinkIfNeeded`. -/
def shrinkIfNeeded (q : ConDequeue α) : Outcome (ConDequeue α) Unit :=
  if q.cap ≥ _MinShrinkThreshold ∧ q.cap ≥ q.size * 4 then q.resize true else .ret q ()

/-- Go `(*ConDequeue).FPush`. -/
def FPush (q : ConDequeue α) (x : α) : Outcome (ConDequeue α) Unit :=
  q.growIfNeeded.andThen fun q _ =>
    let q : ConDequeue α := { q with head := q.prev q.head }
    (q.wr q.head x).andThen fun q _ =>
      .ret { q with size := q.size + 1 } ()

/-- Go `(*ConDequeue).FPop`. -/
def FPop (q : ConDequeue α) : Outcome (ConDequeue α) α :=
  if q.size ≤ 0 then .fault q
  else
    (q.rd q.head).andThen fun q x =>
      (q.wr q.head default).andThen fun q _ =>
        let q : ConDequeue α := { q with head := q.next q.head }
        let q : ConDequeue α := { q with size := q.size - 1 }
        q.shrinkIfNeeded.andThen fun q _ => .ret q x

/-- Go `(*ConDequeue).BPush`. -/
def BPush (q : ConDequeue α) (x : α) : Outcome (ConDequeue α) Unit :=
  q.growIfNeeded.andThen fun q _ =>
    (q.wr q.tail x).andThen fun q _ =>
      let q : ConDequeue α := { q with tail := q.next q.tail }
      .ret { q with size := q.size + 1 } ()

/-- Go `(*ConDequeue).BPop`. -/
def BPop (q : ConDequeue α) : Outcome (ConDequeue α) α :=
  if q.size ≤ 0 then .fault q
  else
    let q : ConDequeue α := { q with tail := q.prev q.tail }
    (q.rd q.tail).andThen fun q x =>
      (q.wr q.tail default).andThen fun q _ =>
        let q : ConDequeue α := { q with size := q.size - 1 }
        q.shrinkIfNeeded.andThen fun q _ => .ret q x

/-- Go `(*ConDequeue).Front`. -/
def Front (q : ConDequeue α) : Outcome (ConDequeue α) α :=
  if q.size ≤ 0 then .fault q else q.rd q.head

/-- Go `(*ConDequeue).Back`. -/
def Back (q : ConDequeue α) : Outcome (ConDequeue α) α :=
  if q.size ≤ 0 then .fault q else q.rd (q.prev q.tail)

/-- Go `(*ConDequeue).At`. -/
def At (q : ConDequeue α) (idx : Int) : Outcome (ConDequeue α) α :=
  if idx < 0 ∨ idx ≥ q.size then .fault q
  else q.rd (Int.land (q.head + idx) (q.cap - 1))

/-- Go `(*ConDequeue).Set`. -/
def Set (q : ConDequeue α) (idx : Int) (x : α) : Outcome (ConDequeue α) Unit :=
  if idx < 0 ∨ idx ≥ q.size then .fault q
  else q.wr (Int.land (q.head + idx) (q.cap - 1)) x

/-- The loop `for ; n < 0; n++ { ... }` of `Rotate`, run for `k` iterations. -/
def rotateBackLoop : Nat → ConDequeue α → Outcome (ConDequeue α) Unit
  | 0, q => .ret q ()
  | k + 1, q =>
    let q : ConDequeue α := { q with head := q.prev q.head }
    let q : ConDequeue α := { q with tail := q.prev q.tail }
    (q.rd q.tail).andThen fun q x =>
      (q.wr q.head x).andThen fun q _ =>
        (q.wr q.tail default).andThen fun q _ => rotateBackLoop k q

/-- The loop `for ; n > 0; n-- { ... }` of `Rotate`, run for `k` iterations. -/
def rotateFrontLoop : Nat → ConDequeue α → Outcome (ConDequeue α) Unit
  | 0, q => .ret q ()
  | k + 1, q =>
    (q.rd q.head).andThen fun q x =>
      (q.wr q.tail x).andThen fun q _ =>
        (q.wr q.head default).andThen fun q _ =>
          let q : ConDequeue α := { q with head := q.next q.head }
          let q : ConDequeue α := { q with tail := q.next q.tail }
          rotateFrontLoop k q

/-- Go `(*ConDequeue).Rotate`; Go's `%` truncates toward zero (`Int.tmod`). -/
def Rotate (q : ConDequeue α) (n : Int) : Outcome (ConDequeue α) Unit :=
  if q.size ≤ 1 then .ret q ()
  else
    let n := Int.tmod n q.size
    if n = 0 then .ret q ()
    else if q.head = q.tail then
      .ret { q with head := Int.land (q.head + n) (q.cap - 1),
                    tail := Int.land (q.tail + n) (q.cap - 1) } ()
    else if n < 0 then rotateBackLoop (-n).toNat q
    else rotateFrontLoop n.toNat q

/-- Representation invariant of a deque state. -/
structure Valid (q : ConDequeue α) : Prop where
  pow : ∃ k : Nat, q.cap = 2 ^ k
  minCap : 32 ≤ q.cap
  len : (q.buf.length : Int) = q.cap
  size_nonneg : 0 ≤ q.size
  size_le : q.size ≤ q.cap
  head_nonneg : 0 ≤ q.head
  head_lt : q.head < q.cap
  tail_eq : q.tail = (q.head + q.size) % q.cap

/-- Logical contents, front first: the slot `(head + i) mod cap` for
`i = 0 .. size - 1`. -/
def toList (q : ConDequeue α) : List α :=
  (List.range q.size.toNat).map fun (i : Nat) =>
    (getI q.buf ((q.head + (i : Int)) % q.cap)).getD default

/-- The valid state `q` holds exactly the elements of `l`, front first. -/
def Rep (q : ConDequeue α) (l : List α) : Prop :=
  q.Valid ∧ q.size = l.length ∧
    ∀ i : Nat, i < l.length → getI q.buf ((q.head + (i : Int)) % q.cap) = l[i]?

end ConDequeue

/-- A sample state: capacity 32, two elements `1, 2` stored wrapped around the
end of the buffer (slots 31 and 0). -/
def sampleDeque : ConDequeue (Option Nat) :=
  { buf := [some 2] ++ List.replicate 30 none ++ [some 1],
    cap := 32, size := 2, head := 31, tail := 1 }

/-- A sample state: capacity 32, the three elements `1, 2, 3` in slots
`5, 6, 7`. -/
def threeDeque : ConDequeue (Option Nat) :=
  { buf := List.replicate 5 none ++ [some 1, some 2, some 3] ++ List.replicate 24 none,
    cap := 32, size := 3, head := 5, tail := 8 }

/-- A sample state: the empty deque of capacity 32. -/
def emptyDeque : ConDequeue (Option Nat) :=
  { buf := List.replicate 32 none, cap := 32, size := 0, head := 0, tail := 0 }

/-- One call of the four push/pop methods of `ConDequeue`. -/
inductive DequeOp (α : Type) where
  | fpush (x : α)
  | bpush (x : α)
  | fpop
  | bpop
  deriving DecidableEq, Repr

namespace DequeOp

variable {α : Type} [Inhabited α]

/-- Run one call on a deque; a pop yields the popped element. -/
def apply (q : ConDequeue α) : DequeOp α → Outcome (ConDequeue α) (Option α)
  | fpush x => (q.FPush x).andThen fun q _ => .ret q none
  | bpush x => (q.BPush x).andThen fun q _ => .ret q none
  | fpop => q.FPop.andThen fun q v => .ret q (some v)
  | bpop => q.BPop.andThen fun q v => .ret q (some v)

/-- Run a sequence of calls, collecting the popped elements in call order and
stopping at the first panic. -/
def run (q : ConDequeue α) : List (DequeOp α) → Outcome (ConDequeue α) (List α)
  | [] => .ret q []
  | op :: ops =>
    (apply q op).andThen fun q v =>
      (run q ops).andThen fun q vs => .ret q (v.toList ++ vs)

/-- The same call on a plain list used as reference deque (front first);
`none` for a pop on the empty list. -/
def refApply (l : List α) : DequeOp α → Option (List α × Option α)
  | fpush x => some (x :: l, none)
  | bpush x => some (l ++ [x], none)
  | fpop =>
    match l with
    | [] => none
    | a :: t => some (t, some a)
  | bpop =>
    match l.getLast? with
    | none => none
    | some a => some (l.dropLast, some a)

/-- Reference run of a sequence of calls; `none` as soon as a pop meets the
empty list. -/
def refRun (l : List α) : List (DequeOp α) → Option (List α × List α)
  | [] => some (l, [])
  | op :: ops =>
    (refApply l op).bind fun r =>
      (refRun r.1 ops).bind fun r2 => some (r2.1, r.2.toList ++ r2.2)

/-- Whether the call is a push. -/
def isPush : DequeOp α → Bool
  | fpush _ => true
  | bpush _ => true
  | _ => false

/-- Number of pushes in a sequence of calls. -/
def pushes (ops : List (DequeOp α)) : Nat := (ops.filter isPush).length

/-- Number of pops in a sequence of calls. -/
def pops (ops : List (DequeOp α)) : Nat := (ops.filter fun o => !isPush o).length

end DequeOp

/-! ### Bounded queue -/

/-- Modelled from the spec: the backing store `deque.Deque` of `ConLimitQueue`
comes from the package `github.com/gammazero/deque`, which is not under
`src/`; the spec describes it as "an unbounded FIFO sequence used as the
backing store".  It is the list of its elements, front first. -/
abbrev Deque (α : Type) := List α

namespace Deque

variable {α : Type}

/-- Modelled from the spec: `Deque.Len`, the number of stored elements. -/
def Len (d : Deque α) : Int := d.length

/-- Modelled from the spec: `Deque.PushBack` appends at the tail. -/
def PushBack (d : Deque α) (x : α) : Deque α := d ++ [x]

/-- Modelled from the spec: `Deque.PopFront` removes and returns the front
element; on an empty deque the library panics (`none`). -/
def PopFront : Deque α → Option (α × Deque α)
  | [] => none
  | x :: d => some (x, d)

end Deque

/-- The fields of the Go struct `ConLimitQueue` (the condition variable left
out). -/
structure ConLimitQueue (α : Type) where
  q : Deque α
  cap : Int
  deriving DecidableEq, Repr

/-- Result of a call of the bounded queue taken as one atomic step: it
returns, or it finds its wait condition true and blocks (state untouched), or
it panics. -/
inductive Call (σ β : Type) where
  | done (s : σ) (v : β)
  | wait (s : σ)
  | fault (s : σ)
  deriving DecidableEq, Repr

/-- Go `NewConLimitQueue`. -/
def NewConLimitQueue {α : Type} (cap : Int) : ConLimitQueue α :=
  { q := [], cap := if cap = 0 then 128 else cap }

namespace ConLimitQueue

variable {α : Type} [Inhabited α]

/-- Go `(*ConLimitQueue).Len`. -/
def Len (s : ConLimitQueue α) : Int := s.q.Len

/-- Go `(*ConLimitQueue).Push`: blocks while `q.q.Len() >= q.cap`. -/
def Push (s : ConLimitQueue α) (x : α) : Call (ConLimitQueue α) Unit :=
  if s.q.Len ≥ s.cap then .wait s
  else .done { s with q := s.q.PushBack x } ()

/-- The loop `for i := 0; i < want; i++ { elems[i] = q.q.PopFront() }` of
`NPop`, from index `i`, for `k` remaining iterations. -/
def npopLoop : Nat → Int → ConLimitQueue α → List α → Call (ConLimitQueue α) (List α)
  | 0, _, s, elems => .done s elems
  | k + 1, i, s, elems =>
    match s.q.PopFront with
    | none => .fault s
    | some (x, d) =>
      match setI elems i x with
      | none => .fault { s with q := d }
      | some elems => npopLoop k (i + 1) { s with q := d } elems

/-- Go `(*ConLimitQueue).NPop`: blocks while the queue is empty. -/
def NPop (s : ConLimitQueue α) (want : Int) : Call (ConLimitQueue α) (List α) :=
  if s.q.Len = 0 then .wait s
  else
    let want := if want > s.q.Len then s.q.Len else want
    match make want with
    | none => .fault s
    | some elems => npopLoop want.toNat 0 s elems

/-- Go `(*ConLimitQueue).Pop`: blocks while the queue is empty. -/
def Pop (s : ConLimitQueue α) : Call (ConLimitQueue α) α :=
  if s.q.Len = 0 then .wait s
  else
    match s.q.PopFront with
    | none => .fault s
    | some (x, d) => .done { s with q := d } x

end ConLimitQueue

/-- One call on the bounded queue. -/
inductive QueueOp (α : Type) where
  | push (x : α)
  | pop
  | npop (want : Int)
  deriving DecidableEq, Repr

/-- A queue state together with the record of what has been pushed and what
has been returned so far. -/
structure Traced (α : Type) where
  st : ConLimitQueue α
  pushed : List α
  returned : List α
  deriving DecidableEq, Repr

namespace Traced

variable {α : Type} [Inhabited α]

/-- Start of a run: the queue made by `NewConLimitQueue c`, nothing pushed,
nothing returned. -/
def init (c : Int) : Traced α :=
  { st := NewConLimitQueue c, pushed := [], returned := [] }

/-- One atomic step: the call takes effect when it returns; a call that
blocks or panics leaves the queue as it is and records nothing. -/
def step (t : Traced α) : QueueOp α → Traced α
  | .push x =>
    match t.st.Push x with
    | .done s _ => { st := s, pushed := t.pushed ++ [x], returned := t.returned }
    | _ => t
  | .pop =>
    match t.st.Pop with
    | .done s v => { st := s, pushed := t.pushed, returned := t.returned ++ [v] }
    | _ => t
  | .npop want =>
    match t.st.NPop want with
    | .done s vs => { st := s, pushed := t.pushed, returned := t.returned ++ vs }
    | _ => t

/-- The state reached from `NewConLimitQueue c` by a sequence of steps. -/
def exec (c : Int) (ops : List (QueueOp α)) : Traced α :=
  ops.foldl step (init c)

end Traced

/-! ### `Clear`, call sequences, capacity traces -/

namespace ConDequeue

variable {α : Type} [Inhabited α]

/-- The loop `for cur := q.head; cur != q.tail; cur = (cur + 1) & (q.cap - 1)
{ q.buf[cur] = nil }` of `Clear`, from `cur`; `none` when the fuel runs out
before the loop exits. -/
def clearLoop : Nat → Int → ConDequeue α → Option (Outcome (ConDequeue α) Unit)
  | 0, _, _ => none
  | fuel + 1, cur, q =>
    if cur ≠ q.tail then
      match q.wr cur default with
      | .ret q1 _ => clearLoop fuel (Int.land (cur + 1) (q1.cap - 1)) q1
      | .fault s => some (.fault s)
    else some (.ret q ())

/-- Go `(*ConDequeue).Clear`; `none` when its loop does not finish within the
fuel. -/
def Clear (fuel : Nat) (q : ConDequeue α) : Option (Outcome (ConDequeue α) Unit) :=
  (clearLoop fuel q.head q).map fun o =>
    o.andThen fun q _ =>
      let q : ConDequeue α := { q with head := 0 }
      let q : ConDequeue α := { q with tail := 0 }
      .ret { q with size := 0 } ()

end ConDequeue

/-- A sample state: capacity 64 holding the 17 elements `0 .. 16` in slots
`0 .. 16`. -/
def quarterDeque : ConDequeue (Option Nat) :=
  { buf := (List.range 17).map some ++ List.replicate 47 none,
    cap := 64, size := 17, head := 0, tail := 17 }

/-- A sample state: capacity 32, completely full with the elements `0 .. 31`
(`size == cap`, `head == tail`). -/
def fullDeque : ConDequeue (Option Nat) :=
  { buf := (List.range 32).map some, cap := 32, size := 32, head := 0, tail := 0 }

/-- One call of a state-changing method of `ConDequeue`. -/
inductive DequeCall (α : Type) where
  | fpush (x : α)
  | bpush (x : α)
  | fpop
  | bpop
  | set (idx : Int) (x : α)
  | clear (fuel : Nat)
  | rotate (n : Int)
  deriving DecidableEq, Repr

namespace DequeCall

variable {α : Type} [Inhabited α]

/-- The state a call leaves behind, whether it returns or panics; `none` when
the loop of `Clear` does not finish within its fuel. -/
def step (q : ConDequeue α) : DequeCall α → Option (ConDequeue α)
  | fpush x => some (q.FPush x).state
  | bpush x => some (q.BPush x).state
  | fpop => some q.FPop.state
  | bpop => some q.BPop.state
  | set idx x => some (q.Set idx x).state
  | clear fuel => (q.Clear fuel).map Outcome.state
  | rotate n => some (q.Rotate n).state

/-- The state reached by a sequence of calls. -/
def exec (q : ConDequeue α) : List (DequeCall α) → Option (ConDequeue α)
  | [] => some q
  | c :: cs => (step q c).bind fun q1 => exec q1 cs

end DequeCall

namespace DequeOp

variable {α : Type} [Inhabited α]

/-- Capacity before and after each call of a run of push/pop calls (up to the
first panic).  A growth resize shows as an increase, a shrink resize as a
decrease. -/
def capTrace (q : ConDequeue α) : List (DequeOp α) → List (Int × Int)
  | [] => []
  | op :: ops =>
    match apply q op with
    | .ret q1 _ => (q.cap, q1.cap) :: capTrace q1 ops
    | .fault _ => []

/-- Whether pushes and pops strictly alternate in a sequence of calls. -/
def alternates : List (DequeOp α) → Bool
  | a :: b :: rest => (isPush a != isPush b) && alternates (b :: rest)
  | _ => true

end DequeOp

/-! ### `CoDequeue` (`src/codequeue.go`) -/

/-- The fields of the Go struct `CoDequeue` (mutex and condition left out). -/
structure CoDequeue (α : Type) where
  buffer : List α
  cnt : Int
  head : Int
  tail : Int
  deriving DecidableEq, Repr

/-- Go `NewCoDequeue`: the request is only raised to 32, not rounded. -/
def NewCoDequeue {α : Type} [Inhabited α] (cap : Int) : Option (CoDequeue α) :=
  (makeslice (if cap < 32 then 32 else cap)).map fun b =>
    { buffer := b, cnt := 0, head := 0, tail := 0 }

namespace CoDequeue

variable {α : Type} [Inhabited α]

/-- Go `(*CoDequeue).Len`. -/
def Len (q : CoDequeue α) : Int := q.cnt

/-- Go `(*CoDequeue).prev`: `(idx - 1) & (len(q.buffer) - 1)`. -/
def prev (q : CoDequeue α) (idx : Int) : Int := Int.land (idx - 1) ((q.buffer.length : Int) - 1)

/-- Go `(*CoDequeue).next`: `(idx + 1) & (len(q.buffer) - 1)`. -/
def next (q : CoDequeue α) (idx : Int) : Int := Int.land (idx + 1) ((q.buffer.length : Int) - 1)

/-- Go `(*CoDequeue).resize`. -/
def resize (q : CoDequeue α) : Outcome (CoDequeue α) Unit :=
  match make (q.cnt * 2) with
  | none => .fault q
  | some newBuffer =>
    if q.tail > q.head then
      match slice q.buffer q.head q.tail with
      | none => .fault q
      | some s => .ret { q with buffer := copy newBuffer s, head := 0, tail := q.cnt } ()
    else
      match slice q.buffer q.head q.buffer.length with
      | none => .fault q
      | some s1 =>
        let n : Nat := copyCount newBuffer s1
        let b1 := copy newBuffer s1
        match slice q.buffer 0 q.tail with
        | none => .fault q
        | some s2 =>
          .ret { q with buffer := b1.take n ++ copy (b1.drop n) s2, head := 0, tail := q.cnt } ()

/-- Go `(*CoDequeue).growIfNeeded`. -/
def growIfNeeded (q : CoDequeue α) : Outcome (CoDequeue α) Unit :=
  if (q.buffer.length : Int) = q.cnt then q.resize else .ret q ()

/-- Go `(*CoDequeue).BPush`. -/
def BPush (q : CoDequeue α) (elem : α) : Outcome (CoDequeue α) Unit :=
  q.growIfNeeded.andThen fun q _ =>
    match setI q.buffer q.tail elem with
    | none => .fault q
    | some b =>
      let q : CoDequeue α := { q with buffer := b }
      let q : CoDequeue α := { q with tail := q.next q.tail }
      .ret { q with cnt := q.cnt + 1 } ()

/-- Go `(*CoDequeue).At`. -/
def At (q : CoDequeue α) (idx : Int) : Outcome (CoDequeue α) α :=
  if idx < 0 ∨ idx ≥ q.cnt then .fault q
  else
    match getI q.buffer (Int.land (q.head + idx) ((q.buffer.length : Int) - 1)) with
    | some x => .ret q x
    | none => .fault q

end CoDequeue

/-! ## Theorems -/

/-! ### Integer arithmetic -/

theorem ldiff_mask (k m : Nat) : Nat.ldiff (2 ^ k - 1) m = 2 ^ k - (m % 2 ^ k + 1) := by
  apply Nat.eq_of_testBit_eq
  intro i
  rw [Nat.testBit_ldiff, Nat.testBit_two_pow_sub_one,
    Nat.testBit_two_pow_sub_succ (Nat.mod_lt _ (Nat.two_pow_pos k)), Nat.testBit_mod_two_pow]
  cases h : decide (i < k) <;> simp

theorem neg_succ_emod (P m : Int) (hP : 0 < P) : (-(m + 1)) % P = P - (m % P + 1) := by
  have hdiv := Int.emod_add_ediv m P
  have h0 := Int.emod_nonneg m (ne_of_gt hP)
  have h1 := Int.emod_lt_of_pos m hP
  have e : -(m + 1) = (P - (m % P + 1)) + P * (-(m / P) - 1) := by
    have : P * (-(m / P) - 1) = -(P * (m / P)) - P := by ring
    rw [this]; omega
  rw [e, Int.add_mul_emod_self_left]
  exact Int.emod_eq_of_lt (by omega) (by omega)

/-- Masking with `2^k - 1` is reduction modulo `2^k`, for negative numbers
too (two's complement). -/
theorem land_mask (k : Nat) (x : Int) : Int.land x (2 ^ k - 1) = x % 2 ^ k := by
  have h1 : ((2 : Int) ^ k - 1) = Int.ofNat (2 ^ k - 1) := by
    have : 1 ≤ 2 ^ k := Nat.one_le_two_pow
    simp [Int.ofNat_eq_coe, Nat.cast_sub this]
  rw [h1]
  cases x with
  | ofNat m =>
    simp only [Int.land]
    rw [Nat.and_pow_two_sub_one_eq_mod]
    simp [Int.ofNat_eq_coe]
  | negSucc m =>
    simp only [Int.land]
    rw [ldiff_mask]
    have hm : m % 2 ^ k < 2 ^ k := Nat.mod_lt _ (Nat.two_pow_pos k)
    have e : Int.negSucc m = -((m : Int) + 1) := by simp [Int.negSucc_eq]
    rw [e, neg_succ_emod _ _ (by positivity), Nat.cast_sub (by omega)]
    push_cast
    rfl

theorem wrap64_of_range (x : Int) (h1 : -2 ^ 63 ≤ x) (h2 : x < 2 ^ 63) : wrap64 x = x := by
  unfold wrap64
  rw [Int.emod_eq_of_lt (by omega) (by omega)]
  omega

/-! ### `nextTwoPower` and `NewConDequeue` -/

theorem nextTwoPowerLoop_spec (n : Int) (hn : n ≤ 2 ^ 62) :
    ∀ (d j fuel : Nat), j + d = 62 → d < fuel →
      ∃ k : Nat, j ≤ k ∧ k ≤ 62 ∧ nextTwoPowerLoop fuel (2 ^ j) n = some (2 ^ k) ∧
        n ≤ 2 ^ k ∧ (k = j ∨ (2 : Int) ^ (k - 1) < n) := by
  intro d
  induction d with
  | zero =>
    intro j fuel hj hf
    obtain ⟨f, rfl⟩ : ∃ f, fuel = f + 1 := ⟨fuel - 1, by omega⟩
    have : j = 62 := by omega
    subst this
    refine ⟨62, le_refl _, le_refl _, ?_, hn, Or.inl rfl⟩
    rw [nextTwoPowerLoop, if_neg (not_lt.mpr hn)]
  | succ d ih =>
    intro j fuel hj hf
    obtain ⟨f, rfl⟩ : ∃ f, fuel = f + 1 := ⟨fuel - 1, by omega⟩
    by_cases hlt : (2 : Int) ^ j < n
    · have hpow : (2 : Int) ^ (j + 1) ≤ 2 ^ 62 :=
        pow_le_pow_right₀ (by norm_num) (by omega)
      have hpos : (0 : Int) < 2 ^ (j + 1) := by positivity
      have hw : wrap64 (2 ^ j * 2) = 2 ^ (j + 1) := by
        rw [← pow_succ]
        exact wrap64_of_range _ (by omega) (by omega)
      obtain ⟨k, hk1, hk2, hk3, hk4, hk5⟩ := ih (j + 1) f (by omega) (by omega)
      refine ⟨k, by omega, hk2, ?_, hk4, Or.inr ?_⟩
      · rw [nextTwoPowerLoop, if_pos hlt, hw, hk3]
      · rcases hk5 with h | h
        · subst h; simpa using hlt
        · exact h
    · refine ⟨j, le_refl _, by omega, ?_, not_lt.mp hlt, Or.inl rfl⟩
      rw [nextTwoPowerLoop, if_neg hlt]

theorem nextTwoPowerLoop_zero (n : Int) (hn : 0 < n) :
    ∀ fuel, nextTwoPowerLoop fuel 0 n = none := by
  intro fuel
  induction fuel with
  | zero => rfl
  | succ f ih =>
    have hw : wrap64 (0 * 2) = 0 := by decide
    rw [nextTwoPowerLoop, if_pos hn, hw, ih]

theorem nextTwoPowerLoop_min (n : Int) (hn : 0 < n) :
    ∀ fuel, nextTwoPowerLoop fuel (-2 ^ 63) n = none := by
  intro fuel
  cases fuel with
  | zero => rfl
  | succ f =>
    have hw : wrap64 (-2 ^ 63 * 2) = 0 := by decide
    have hlt : -(2 : Int) ^ 63 < n := by omega
    rw [nextTwoPowerLoop, if_pos hlt, hw, nextTwoPowerLoop_zero n hn]

/-- Past `2^62` the loop of `nextTwoPower` never exits: `m` wraps to `-2^63`,
then to `0`, and stays there. -/
theorem nextTwoPowerLoop_diverges (n : Int) (hn : 2 ^ 62 < n) :
    ∀ (d j fuel : Nat), j + d = 62 → nextTwoPowerLoop fuel (2 ^ j) n = none := by
  intro d
  induction d with
  | zero =>
    intro j fuel hj
    have : j = 62 := by omega
    subst this
    cases fuel with
    | zero => rfl
    | succ f =>
      have hw : wrap64 (2 ^ 62 * 2) = -2 ^ 63 := by decide
      rw [nextTwoPowerLoop, if_pos hn, hw]
      exact nextTwoPowerLoop_min n (by omega) f
  | succ d ih =>
    intro j fuel hj
    cases fuel with
    | zero => rfl
    | succ f =>
      have hpow : (2 : Int) ^ (j + 1) ≤ 2 ^ 62 :=
        pow_le_pow_right₀ (by norm_num) (by omega)
      have hpos : (0 : Int) < 2 ^ j := by positivity
      have hlt : (2 : Int) ^ j < n := by
        have : (2 : Int) ^ (j + 1) = 2 ^ j * 2 := pow_succ _ _
        omega
      have hw : wrap64 (2 ^ j * 2) = 2 ^ (j + 1) := by
        rw [← pow_succ]
        exact wrap64_of_range _ (by omega) (by omega)
      rw [nextTwoPowerLoop, if_pos hlt, hw]
      exact ih (j + 1) f (by omega)

/-- What `NewConDequeue` builds for a request of at most `2^44`. -/
theorem NewConDequeue_eq {α : Type} [Inhabited α] (c : Int) (hc : c ≤ 2 ^ 44)
    (fuel : Nat) (hf : 58 ≤ fuel) :
    ∃ k : Nat, 5 ≤ k ∧ k ≤ 44 ∧
      (NewConDequeue fuel c : Option (ConDequeue α)) =
        some { buf := List.replicate (2 ^ k) default, cap := 2 ^ k,
               size := 0, head := 0, tail := 0 } ∧
      c ≤ 2 ^ k ∧ (k = 5 ∨ (2 : Int) ^ (k - 1) < c) := by
  have hmk : ∀ k : Nat, k ≤ 44 → (makeslice ((2 : Int) ^ k) : Option (List α)) =
      some (List.replicate (2 ^ k) default) := by
    intro k hk
    have h0 : (0 : Int) ≤ 2 ^ k := by positivity
    have h1 : ((2 : Int) ^ k).toNat = 2 ^ k := by
      have : ((2 : Int) ^ k) = ((2 ^ k : Nat) : Int) := by push_cast; rfl
      rw [this, Int.toNat_natCast]
    have h2 : (2 : Int) ^ k ≤ maxSliceLen := pow_le_pow_right₀ (by norm_num) hk
    simp [makeslice, h0, h1, h2]
  by_cases h : c < _MinCap
  · refine ⟨5, le_refl _, by omega, ?_, ?_, Or.inl rfl⟩
    · have := hmk 5 (by omega)
      simp only [NewConDequeue, if_pos h, Option.bind]
      norm_num [_MinCap] at this ⊢
      rw [this]
    · simp only [_MinCap] at h; omega
  · obtain ⟨k, hk1, _, hk3, hk4, hk5⟩ :=
      nextTwoPowerLoop_spec c (by omega) 57 5 fuel (by omega) (by omega)
    have hk44 : k ≤ 44 := by
      rcases hk5 with h5 | h5
      · omega
      · by_contra hgt
        have : (2 : Int) ^ 44 ≤ 2 ^ (k - 1) := pow_le_pow_right₀ (by norm_num) (by omega)
        omega
    refine ⟨k, hk1, hk44, ?_, hk4, hk5⟩
    have h32 : ((2 : Int) ^ 5) = 32 := by norm_num
    rw [h32] at hk3
    simp only [NewConDequeue, if_neg h, nextTwoPower, hk3, Option.bind, hmk k hk44]

/-- C8 (amended): for every requested capacity `c ≤ 2^44` (in particular
every `0 ≤ c ≤ 2^44`; `2^44` is the largest slice length the run time
accepts), `NewConDequeue c` returns (with enough fuel for the loop of
`nextTwoPower`) an empty deque: `size = 0`, `head = tail = 0`, `Len() = 0`,
and its buffer length and capacity both equal the smallest power of two that
is at least `max c 32`. -/
theorem NewConDequeue_spec {α : Type} [Inhabited α] (c : Int)
    (hc : c ≤ 2 ^ 44) (fuel : Nat) (hf : 58 ≤ fuel) :
    ∃ (q : ConDequeue α) (k : Nat), NewConDequeue fuel c = some q ∧
      q.size = 0 ∧ q.head = 0 ∧ q.tail = 0 ∧ q.Len = 0 ∧
      (q.buf.length : Int) = 2 ^ k ∧ q.cap = 2 ^ k ∧
      max c 32 ≤ 2 ^ k ∧ ∀ j : Nat, max c 32 ≤ (2 : Int) ^ j → (2 : Int) ^ k ≤ 2 ^ j := by
  obtain ⟨k, hk5, _, hq, hle, hmin⟩ := @NewConDequeue_eq α _ c hc fuel hf
  have h32 : (32 : Int) ≤ 2 ^ k := by
    have : (2 : Int) ^ 5 ≤ 2 ^ k := pow_le_pow_right₀ (by norm_num) hk5
    norm_num at this; exact this
  refine ⟨_, k, hq, rfl, rfl, rfl, rfl, ?_, rfl, max_le hle h32, ?_⟩
  · simp
  · intro j hj
    have hj32 : (32 : Int) ≤ 2 ^ j := le_trans (le_max_right _ _) hj
    have hjc : c ≤ 2 ^ j := le_trans (le_max_left _ _) hj
    apply pow_le_pow_right₀ (by norm_num)
    rcases hmin with h | h
    · subst h
      by_contra hlt
      have : (2 : Int) ^ j ≤ 2 ^ 4 := pow_le_pow_right₀ (by norm_num) (by omega)
      norm_num at this; omega
    · by_contra hlt
      have : (2 : Int) ^ j ≤ 2 ^ (k - 1) := pow_le_pow_right₀ (by norm_num) (by omega)
      omega

/-- Witness for C8 (amended): a request of 100 yields capacity 128. -/
theorem NewConDequeue_spec_witness :
    (100 : Int) ≤ 2 ^ 44 ∧ 58 ≤ 58 ∧
    ∃ (q : ConDequeue (Option Nat)) (k : Nat), NewConDequeue 58 100 = some q ∧
      q.size = 0 ∧ q.head = 0 ∧ q.tail = 0 ∧ q.Len = 0 ∧
      (q.buf.length : Int) = 2 ^ k ∧ q.cap = 2 ^ k ∧
      max (100 : Int) 32 ≤ 2 ^ k ∧
      ∀ j : Nat, max (100 : Int) 32 ≤ (2 : Int) ^ j → (2 : Int) ^ k ≤ 2 ^ j :=
  ⟨by decide, le_refl _, NewConDequeue_spec 100 (by decide) 58 (le_refl _)⟩

theorem getI_natCast {α : Type} (s : List α) (i : Nat) : getI s (i : Int) = s[i]? := by
  simp [getI]

theorem getI_eq_none_of_neg {α : Type} (s : List α) (i : Int) (h : i < 0) : getI s i = none := by
  simp [getI, not_le.mpr h]

theorem setI_eq_some {α : Type} (s : List α) (i : Int) (x : α) (h0 : 0 ≤ i)
    (h1 : i < s.length) : setI s i x = some (s.set i.toNat x) := by
  simp [setI, h0, h1]

theorem getI_set_same {α : Type} (s : List α) (i : Int) (x : α) (h0 : 0 ≤ i)
    (h1 : i < s.length) : getI (s.set i.toNat x) i = some x := by
  have : i.toNat < s.length := by omega
  simp [getI, h0, this]

theorem getI_set_other {α : Type} (s : List α) (i j : Int) (x : α) (h0 : 0 ≤ i)
    (hne : j ≠ i) : getI (s.set i.toNat x) j = getI s j := by
  unfold getI
  split
  · rename_i hj
    have : i.toNat ≠ j.toNat := by omega
    simp [List.getElem?_set, this]
  · rfl

theorem getI_isSome {α : Type} (s : List α) (i : Int) (h0 : 0 ≤ i) (h1 : i < s.length) :
    ∃ v, getI s i = some v := by
  have : i.toNat < s.length := by omega
  exact ⟨s[i.toNat], by simp [getI, h0, this]⟩

theorem length_copy {α : Type} (dst src : List α) : (copy dst src).length = dst.length := by
  simp [copy]; omega

theorem getElem?_copy_lt {α : Type} (dst src : List α) (i : Nat) (h1 : i < src.length)
    (h2 : i < dst.length) : (copy dst src)[i]? = src[i]? := by
  simp [copy, List.getElem?_append, List.getElem?_take, h1, h2]

/-- Contiguous case of `resize`. -/
theorem copy_contiguous {α : Type} (d : α) (buf : List α) (C h s : Nat)
    (hs : s ≤ C) (hb : h + s ≤ buf.length) :
    (copy (List.replicate C d) ((buf.take (h + s)).drop h)).length = C ∧
    ∀ i : Nat, i < s → (copy (List.replicate C d) ((buf.take (h + s)).drop h))[i]? = buf[h + i]? := by
  refine ⟨by simp [length_copy], ?_⟩
  intro i hi
  rw [getElem?_copy_lt _ _ _ (by simp; omega) (by simp; omega)]
  simp [List.getElem?_drop, List.getElem?_take]
  omega

/-- Length of the buffer built by the two-chunk case of `resize`. -/
theorem length_two_chunks {α : Type} (nb s1 s2 : List α) :
    ((copy nb s1).take (copyCount nb s1) ++
      copy ((copy nb s1).drop (copyCount nb s1)) s2).length = nb.length := by
  simp [length_copy, copyCount]

/-- Contents of the buffer built by the two-chunk case of `resize`. -/
theorem getElem?_two_chunks {α : Type} (d : α) (buf : List α) (C h t : Nat)
    (hh : h ≤ buf.length) (ht : t ≤ buf.length) (hC : buf.length - h + t ≤ C) :
    let nb := List.replicate C d
    let s1 := buf.drop h
    let s2 := buf.take t
    let r := (copy nb s1).take (copyCount nb s1) ++ copy ((copy nb s1).drop (copyCount nb s1)) s2
    (∀ i : Nat, i < buf.length - h → r[i]? = buf[h + i]?) ∧
    (∀ i : Nat, i < t → r[buf.length - h + i]? = buf[i]?) := by
  intro nb s1 s2 r
  have hn : copyCount nb s1 = buf.length - h := by
    simp [copyCount, nb, s1]; omega
  constructor
  · intro i hi
    simp only [r, hn]
    rw [List.getElem?_append_left (by simp [length_copy, nb]; omega)]
    rw [List.getElem?_take_of_lt hi]
    rw [getElem?_copy_lt _ _ _ (by simp [s1]; omega) (by simp [nb]; omega)]
    simp [s1]
  · intro i hi
    simp only [r, hn]
    rw [List.getElem?_append_right (by simp [length_copy, nb])]
    have e : buf.length - h + i - (List.take (buf.length - h) (copy nb s1)).length = i := by
      simp [length_copy, nb]; omega
    rw [e, getElem?_copy_lt _ _ _ (by simp [s2]; omega) (by simp [length_copy, nb]; omega)]
    simp [s2, List.getElem?_take, hi]

/-! ### Index arithmetic modulo the capacity -/

theorem emod_wrap (x C : Int) (h1 : C ≤ x) (h2 : x < 2 * C) : x % C = x - C := by
  have e : x % C = ((x - C) + C * 1) % C := by congr 1; ring
  rw [e, Int.add_mul_emod_self_left]
  exact Int.emod_eq_of_lt (by omega) (by omega)

theorem emod_inj (a b C : Int) (hC : 0 < C) (h : a % C = b % C) (h1 : a - b < C)
    (h2 : b - a < C) : a = b := by
  have hd : C ∣ a - b := Int.dvd_of_emod_eq_zero (Int.emod_eq_emod_iff_emod_sub_eq_zero.mp h)
  obtain ⟨k, hk⟩ := hd
  have hk0 : k = 0 := by
    by_contra hne
    rcases lt_or_gt_of_ne hne with hlt | hgt
    · have : C * k ≤ C * (-1) := Int.mul_le_mul_of_nonneg_left (by omega) (le_of_lt hC)
      omega
    · have : C * 1 ≤ C * k := Int.mul_le_mul_of_nonneg_left (by omega) (le_of_lt hC)
      omega
  subst hk0
  omega

namespace ConDequeue

variable {α : Type} [Inhabited α]

theorem Valid.cap_pos {q : ConDequeue α} (hv : q.Valid) : 0 < q.cap := by
  have := hv.minCap; omega

theorem Valid.mask {q : ConDequeue α} (hv : q.Valid) (x : Int) :
    Int.land x (q.cap - 1) = x % q.cap := by
  obtain ⟨k, hk⟩ := hv.pow
  rw [hk]; exact land_mask k x

theorem Valid.tail_nonneg {q : ConDequeue α} (hv : q.Valid) : 0 ≤ q.tail := by
  rw [hv.tail_eq]; exact Int.emod_nonneg _ (ne_of_gt hv.cap_pos)

theorem Valid.tail_lt {q : ConDequeue α} (hv : q.Valid) : q.tail < q.cap := by
  rw [hv.tail_eq]; exact Int.emod_lt_of_pos _ hv.cap_pos

theorem Rep.toList_eq {q : ConDequeue α} {l : List α} (h : q.Rep l) : q.toList = l := by
  obtain ⟨hv, hs, hg⟩ := h
  apply List.ext_getElem?
  intro i
  by_cases hi : i < l.length
  · have hi2 : i < q.size.toNat := by omega
    simp [toList, List.getElem?_map, List.getElem?_range hi2, hg i hi, hi]
  · have hlen : q.toList.length = q.size.toNat := by simp [toList]
    rw [List.getElem?_eq_none (by omega), List.getElem?_eq_none (by omega)]

theorem Valid.slot {q : ConDequeue α} (hv : q.Valid) (i : Int) :
    ∃ v, getI q.buf (i % q.cap) = some v :=
  getI_isSome _ _ (Int.emod_nonneg _ (ne_of_gt hv.cap_pos))
    (by rw [hv.len]; exact Int.emod_lt_of_pos _ hv.cap_pos)

theorem Valid.rep {q : ConDequeue α} (hv : q.Valid) : q.Rep q.toList := by
  refine ⟨hv, ?_, ?_⟩
  · have := hv.size_nonneg
    simp [toList]; omega
  · intro i hi
    have hi2 : i < q.size.toNat := by simpa [toList] using hi
    obtain ⟨v, hv2⟩ := hv.slot (q.head + i)
    simp [toList, List.getElem?_map, List.getElem?_range hi2, hv2]

end ConDequeue

namespace ConDequeue

variable {α : Type} [Inhabited α]

/-- The method `resize` keeps the contents whenever the new capacity is a power of two
above the current size. -/
theorem Rep.resize {q : ConDequeue α} {l : List α} (h : q.Rep l) (shrink : Bool)
    (C' : Int) (k' : Nat) (hC' : (if shrink = true then q.cap / 2 else q.cap * 2) = C')
    (hpow : C' = 2 ^ k') (h32 : 32 ≤ C') (hsz : q.size < C')
    (hne : ¬ (shrink = true ∧ q.cap = _MinCap)) :
    ∃ q', q.resize shrink = .ret q' () ∧ q'.Rep l ∧ q'.cap = C' ∧ q'.size = q.size ∧
      q'.head = 0 := by
  obtain ⟨hv, hs, hg⟩ := h
  obtain ⟨buf, cap, size, head, tail⟩ := q
  have hcp := hv.cap_pos
  obtain ⟨_, _, hlen, hs0, hsle, hh0, hhlt, hteq⟩ := hv
  simp only at hC' hsz hne hs hg hlen hs0 hsle hh0 hhlt hteq hcp
  have hmk : (make C' : Option (List α)) = some (List.replicate C'.toNat default) := by
    simp [make]; omega
  lift head to Nat using hh0 with h
  lift C' to Nat using (by omega) with c'
  subst hs
  have hvalid : ∀ b : List α, b.length = c' →
      Valid ({ buf := b, cap := (c' : Int), size := (l.length : Int), head := 0,
               tail := (l.length : Int) } : ConDequeue α) := by
    intro b hb
    refine ⟨⟨k', hpow⟩, h32, ?_, ?_, ?_, ?_, ?_, ?_⟩ <;> dsimp only
    · rw [hb]
    · omega
    · omega
    · omega
    · omega
    · rw [zero_add]
      exact (Int.emod_eq_of_lt (by omega) hsz).symm
  have hidx : ∀ i : Nat, i < l.length → ((0 : Int) + (i : Int)) % (c' : Int) = (i : Int) := by
    intro i hi
    rw [zero_add]; exact Int.emod_eq_of_lt (by omega) (by omega)
  unfold ConDequeue.resize
  rw [if_neg hne]
  simp only [hC', hmk, Int.toNat_natCast]
  by_cases hth : tail > (h : Int)
  · -- contiguous contents
    have hsum : (h : Int) + l.length < cap := by
      by_contra hcon
      have := emod_wrap ((h : Int) + l.length) cap (by omega) (by omega)
      omega
    have ht : tail = ((h + l.length : Nat) : Int) := by
      rw [hteq, Int.emod_eq_of_lt (by omega) hsum]; push_cast; rfl
    subst ht
    have hsl : slice buf (h : Int) ((h + l.length : Nat) : Int) =
        some ((buf.take (h + l.length)).drop h) := by
      simp only [slice, Int.toNat_natCast]
      rw [if_pos]
      refine ⟨by omega, by omega, by omega⟩
    have hcc := copy_contiguous (default : α) buf c' h l.length (by omega) (by omega)
    rw [if_pos hth]
    simp only [hsl]
    refine ⟨_, rfl, ⟨hvalid _ hcc.1, rfl, ?_⟩, rfl, rfl, rfl⟩
    intro i hi
    simp only
    rw [hidx i hi, getI_natCast, hcc.2 i hi, ← hg i hi,
      Int.emod_eq_of_lt (by omega) (by omega)]
    have : (h : Int) + (i : Int) = ((h + i : Nat) : Int) := by push_cast; rfl
    rw [this, getI_natCast]
  · -- contents wrap around (or the deque is empty)
    have ht0 : 0 ≤ tail := by rw [hteq]; exact Int.emod_nonneg _ (by omega)
    lift tail to Nat using ht0 with t
    have hs1 : slice buf (h : Int) (buf.length : Int) = some (buf.drop h) := by
      simp only [slice, Int.toNat_natCast, List.take_length]
      rw [if_pos]
      refine ⟨by omega, by omega, by omega⟩
    have hs2 : slice buf 0 (t : Int) = some (buf.take t) := by
      simp only [slice, Int.toNat_natCast, Int.toNat_zero, List.drop_zero]
      rw [if_pos]
      refine ⟨by omega, by omega, by omega⟩
    rw [if_neg hth]
    simp only [hs1, hs2]
    have hlen2 := length_two_chunks (List.replicate c' (default : α)) (buf.drop h) (buf.take t)
    rw [List.length_replicate] at hlen2
    refine ⟨_, rfl, ⟨hvalid _ hlen2, rfl, ?_⟩, rfl, rfl, rfl⟩
    intro i hi
    have hsum : cap ≤ (h : Int) + l.length := by
      by_contra hcon
      rw [Int.emod_eq_of_lt (by omega) (by omega)] at hteq
      omega
    have ht : (t : Int) = (h : Int) + l.length - cap := by
      rw [hteq]; exact emod_wrap _ _ hsum (by omega)
    have hch := getElem?_two_chunks (default : α) buf c' h t (by omega) (by omega) (by omega)
    simp only at hch
    simp only
    rw [hidx i hi, getI_natCast, ← hg i hi]
    by_cases hi2 : i < buf.length - h
    · rw [hch.1 i hi2, Int.emod_eq_of_lt (by omega) (by omega)]
      have : (h : Int) + (i : Int) = ((h + i : Nat) : Int) := by push_cast; rfl
      rw [this, getI_natCast]
    · obtain ⟨j, rfl⟩ : ∃ j, i = buf.length - h + j := ⟨i - (buf.length - h), by omega⟩
      rw [hch.2 j (by omega), emod_wrap _ _ (by omega) (by omega)]
      have : (h : Int) + ((buf.length - h + j : Nat) : Int) - cap = (j : Int) := by omega
      rw [this, getI_natCast]

end ConDequeue

namespace ConDequeue

variable {α : Type} [Inhabited α]

theorem Rep.growIfNeeded {q : ConDequeue α} {l : List α} (h : q.Rep l) :
    ∃ q', q.growIfNeeded = .ret q' () ∧ q'.Rep l ∧ q'.size < q'.cap ∧
      (q.size < q.cap → q' = q) ∧ (q.size = q.cap → q'.cap = q.cap * 2 ∧ q'.head = 0) := by
  unfold ConDequeue.growIfNeeded
  by_cases hfull : q.size = q.cap
  · obtain ⟨k, hk⟩ := h.1.pow
    have h32 := h.1.minCap
    obtain ⟨q', h1, h2, h3, h4, h5⟩ := h.resize false (q.cap * 2) (k + 1) (by simp)
      (by rw [hk, pow_succ]) (by omega) (by omega) (by simp)
    rw [if_pos hfull]
    exact ⟨q', h1, h2, by omega, fun hlt => by omega, fun _ => ⟨h3, h5⟩⟩
  · rw [if_neg hfull]
    have := h.1.size_le
    exact ⟨q, rfl, h, by omega, fun _ => rfl, fun he => absurd he hfull⟩

theorem Rep.shrinkIfNeeded {q : ConDequeue α} {l : List α} (h : q.Rep l) :
    ∃ q', q.shrinkIfNeeded = .ret q' () ∧ q'.Rep l := by
  unfold ConDequeue.shrinkIfNeeded
  by_cases hc : q.cap ≥ _MinShrinkThreshold ∧ q.cap ≥ q.size * 4
  · rw [if_pos hc]
    obtain ⟨hc1, hc2⟩ := hc
    simp only [_MinShrinkThreshold] at hc1
    obtain ⟨k, hk⟩ := h.1.pow
    have hs0 := h.1.size_nonneg
    cases k with
    | zero => rw [hk] at hc1; norm_num at hc1
    | succ k =>
      have hhalf : q.cap / 2 = 2 ^ k := by
        rw [hk, pow_succ]; exact Int.mul_ediv_cancel _ (by norm_num)
      obtain ⟨q', h1, h2, _⟩ := h.resize true (q.cap / 2) k (by simp) hhalf (by omega)
        (by omega) (by simp only [_MinCap]; omega)
      exact ⟨q', h1, h2⟩
  · rw [if_neg hc]
    exact ⟨q, rfl, h⟩

end ConDequeue

theorem emod_sub_emod_left (x k C : Int) : (x % C - k) % C = (x - k) % C := by
  rw [sub_eq_add_neg, Int.emod_add_emod, ← sub_eq_add_neg]

namespace ConDequeue

variable {α : Type} [Inhabited α]

/-- Writing a slot that holds no element keeps the contents. -/
theorem Rep.frame {q : ConDequeue α} {l : List α} (h : q.Rep l) (p : Int) (x : α) (i : Nat)
    (hi : i < l.length) (hp0 : 0 ≤ p) (hne : (q.head + (i : Int)) % q.cap ≠ p) :
    getI (q.buf.set p.toNat x) ((q.head + (i : Int)) % q.cap) = l[i]? := by
  rw [getI_set_other _ _ _ _ hp0 hne]
  exact h.2.2 i hi

theorem Rep.FPush {q : ConDequeue α} {l : List α} (h : q.Rep l) (x : α) :
    ∃ q', q.FPush x = .ret q' () ∧ q'.Rep (x :: l) := by
  obtain ⟨q1, hg, hr, hlt, -⟩ := h.growIfNeeded
  obtain ⟨hv, hs, hel⟩ := hr
  have hcp := hv.cap_pos
  have hp0 : 0 ≤ (q1.head - 1) % q1.cap := Int.emod_nonneg _ (ne_of_gt hcp)
  have hp1 : (q1.head - 1) % q1.cap < q1.cap := Int.emod_lt_of_pos _ hcp
  unfold ConDequeue.FPush
  rw [hg]
  simp only [Outcome.andThen, prev, wr, hv.mask]
  rw [setI_eq_some _ _ _ hp0 (by rw [hv.len]; exact hp1)]
  refine ⟨_, rfl, ?_, ?_, ?_⟩
  · refine ⟨hv.pow, hv.minCap, ?_, ?_, ?_, hp0, hp1, ?_⟩ <;> dsimp only
    · rw [List.length_set]; exact hv.len
    · have := hv.size_nonneg; omega
    · omega
    · rw [Int.emod_add_emod, hv.tail_eq]; congr 1; ring
  · simp only [List.length_cons]; push_cast; omega
  · intro i hi
    dsimp only
    cases i with
    | zero =>
      simp only [Nat.cast_zero, add_zero, Int.emod_emod, List.getElem?_cons_zero]
      exact getI_set_same _ _ _ hp0 (by rw [hv.len]; exact hp1)
    | succ j =>
      have hj : j < l.length := by simpa using hi
      have e : ((q1.head - 1) % q1.cap + ((j + 1 : Nat) : Int)) % q1.cap
          = (q1.head + (j : Int)) % q1.cap := by
        rw [Int.emod_add_emod]; congr 1; push_cast; ring
      rw [e, List.getElem?_cons_succ]
      apply Rep.frame ⟨hv, hs, hel⟩ _ _ _ hj hp0
      intro hcon
      have := emod_inj _ _ _ hcp hcon (by omega) (by omega)
      omega

theorem Rep.BPush {q : ConDequeue α} {l : List α} (h : q.Rep l) (x : α) :
    ∃ q', q.BPush x = .ret q' () ∧ q'.Rep (l ++ [x]) := by
  obtain ⟨q1, hg, hr, hlt, -⟩ := h.growIfNeeded
  obtain ⟨hv, hs, hel⟩ := hr
  have hcp := hv.cap_pos
  have hp0 : 0 ≤ q1.tail := hv.tail_nonneg
  have hp1 : q1.tail < q1.cap := hv.tail_lt
  unfold ConDequeue.BPush
  rw [hg]
  simp only [Outcome.andThen, next, wr, hv.mask]
  rw [setI_eq_some _ _ _ hp0 (by rw [hv.len]; exact hp1)]
  refine ⟨_, rfl, ?_, ?_, ?_⟩
  · refine ⟨hv.pow, hv.minCap, ?_, ?_, ?_, hv.head_nonneg, hv.head_lt, ?_⟩ <;> dsimp only
    · rw [List.length_set]; exact hv.len
    · have := hv.size_nonneg; omega
    · omega
    · rw [hv.mask, hv.tail_eq, Int.emod_add_emod]; congr 1; ring
  · simp only [List.length_append, List.length_singleton]; push_cast; omega
  · intro i hi
    dsimp only
    by_cases hil : i < l.length
    · rw [List.getElem?_append_left hil]
      apply Rep.frame ⟨hv, hs, hel⟩ _ _ _ hil hp0
      intro hcon
      rw [hv.tail_eq] at hcon
      have := emod_inj _ _ _ hcp hcon (by omega) (by omega)
      omega
    · have hie : i = l.length := by
        simp only [List.length_append, List.length_singleton] at hi; omega
      subst hie
      rw [← hs, ← hv.tail_eq]
      simp only [List.getElem?_append_right (le_refl _), Nat.sub_self,
        List.getElem?_cons_zero]
      exact getI_set_same _ _ _ hp0 (by rw [hv.len]; exact hp1)

theorem Rep.FPop {q : ConDequeue α} {l : List α} {a : α} (h : q.Rep (a :: l)) :
    ∃ q', q.FPop = .ret q' a ∧ q'.Rep l := by
  obtain ⟨hv, hs, hel⟩ := h
  have hcp := hv.cap_pos
  simp only [List.length_cons] at hs
  have hsz : ¬ q.size ≤ 0 := by omega
  have hh0 := hv.head_nonneg
  have hh1 := hv.head_lt
  have hrd : getI q.buf q.head = some a := by
    have := hel 0 (by simp)
    simpa [Int.emod_eq_of_lt hh0 hh1] using this
  have hn0 : 0 ≤ (q.head + 1) % q.cap := Int.emod_nonneg _ (ne_of_gt hcp)
  have hn1 : (q.head + 1) % q.cap < q.cap := Int.emod_lt_of_pos _ hcp
  have hrep : Rep ({ buf := q.buf.set q.head.toNat default, cap := q.cap,
                     size := q.size - 1, head := (q.head + 1) % q.cap,
                     tail := q.tail } : ConDequeue α) l := by
    refine ⟨?_, ?_, ?_⟩
    · refine ⟨hv.pow, hv.minCap, ?_, ?_, ?_, hn0, hn1, ?_⟩ <;> dsimp only
      · rw [List.length_set]; exact hv.len
      · omega
      · have := hv.size_le; omega
      · rw [Int.emod_add_emod, hv.tail_eq]; congr 1; ring
    · dsimp only; omega
    · intro i hi
      dsimp only
      have e : ((q.head + 1) % q.cap + (i : Int)) % q.cap
          = (q.head + ((i + 1 : Nat) : Int)) % q.cap := by
        rw [Int.emod_add_emod]; congr 1; push_cast; ring
      rw [e, getI_set_other _ _ _ _ hh0]
      · have := hel (i + 1) (by simpa using hi)
        simpa using this
      · intro hcon
        rw [← Int.emod_eq_of_lt hh0 hh1] at hcon
        have hsl := hv.size_le
        have := emod_inj _ _ _ hcp hcon (by rw [Int.emod_eq_of_lt hh0 hh1]; omega)
          (by rw [Int.emod_eq_of_lt hh0 hh1]; omega)
        rw [Int.emod_eq_of_lt hh0 hh1] at this
        omega
  obtain ⟨q', hsh, hr'⟩ := hrep.shrinkIfNeeded
  unfold ConDequeue.FPop
  rw [if_neg hsz]
  simp only [Outcome.andThen, rd, hrd, wr, next]
  rw [setI_eq_some _ _ _ hh0 (by rw [hv.len]; exact hh1)]
  simp only [hv.mask, hsh]
  exact ⟨q', rfl, hr'⟩

theorem Rep.BPop {q : ConDequeue α} {l : List α} {a : α} (h : q.Rep (l ++ [a])) :
    ∃ q', q.BPop = .ret q' a ∧ q'.Rep l := by
  obtain ⟨hv, hs, hel⟩ := h
  have hcp := hv.cap_pos
  simp only [List.length_append, List.length_singleton] at hs hel
  have hsz : ¬ q.size ≤ 0 := by omega
  have hp0 : 0 ≤ (q.tail - 1) % q.cap := Int.emod_nonneg _ (ne_of_gt hcp)
  have hp1 : (q.tail - 1) % q.cap < q.cap := Int.emod_lt_of_pos _ hcp
  have hpe : (q.tail - 1) % q.cap = (q.head + (l.length : Int)) % q.cap := by
    rw [hv.tail_eq, emod_sub_emod_left]; congr 1; omega
  have hrd : getI q.buf ((q.tail - 1) % q.cap) = some a := by
    rw [hpe, hel l.length (by omega)]
    simp
  have hsl := hv.size_le
  have hrep : Rep ({ buf := q.buf.set ((q.tail - 1) % q.cap).toNat default, cap := q.cap,
                     size := q.size - 1, head := q.head,
                     tail := (q.tail - 1) % q.cap } : ConDequeue α) l := by
    refine ⟨?_, ?_, ?_⟩
    · refine ⟨hv.pow, hv.minCap, ?_, ?_, ?_, hv.head_nonneg, hv.head_lt, ?_⟩ <;> dsimp only
      · rw [List.length_set]; exact hv.len
      · omega
      · omega
      · rw [hpe]; congr 1; omega
    · dsimp only; omega
    · intro i hi
      dsimp only
      rw [getI_set_other _ _ _ _ hp0]
      · rw [hel i (by omega), List.getElem?_append_left hi]
      · intro hcon
        rw [hpe] at hcon
        have := emod_inj _ _ _ hcp hcon (by omega) (by omega)
        omega
  obtain ⟨q', hsh, hr'⟩ := hrep.shrinkIfNeeded
  unfold ConDequeue.BPop
  rw [if_neg hsz]
  simp only [Outcome.andThen, rd, hrd, wr, prev, hv.mask]
  rw [setI_eq_some _ _ _ hp0 (by rw [hv.len]; exact hp1)]
  simp only [hsh]
  exact ⟨q', rfl, hr'⟩

theorem Rep.At {q : ConDequeue α} {l : List α} (h : q.Rep l) (i : Nat) (hi : i < l.length) :
    q.At (i : Int) = .ret q l[i] := by
  obtain ⟨hv, hs, hel⟩ := h
  have hc : ¬ ((i : Int) < 0 ∨ (i : Int) ≥ q.size) := by omega
  unfold ConDequeue.At
  rw [if_neg hc]
  simp only [rd, hv.mask, hel i hi, List.getElem?_eq_getElem hi]

end ConDequeue

theorem nextTwoPowerLoop_mono (n : Int) : ∀ (fuel : Nat) (m r : Int),
    nextTwoPowerLoop fuel m n = some r → ∀ k : Nat, nextTwoPowerLoop (fuel + k) m n = some r := by
  intro fuel
  induction fuel with
  | zero => intro m r h; simp [nextTwoPowerLoop] at h
  | succ f ih =>
    intro m r h k
    rw [Nat.add_right_comm, nextTwoPowerLoop]
    rw [nextTwoPowerLoop] at h
    by_cases hlt : m < n
    · rw [if_pos hlt] at h ⊢
      exact ih _ _ h k
    · rw [if_neg hlt] at h ⊢
      exact h

theorem NewConDequeue_mono {α : Type} [Inhabited α] (fuel : Nat) (c : Int) (q : ConDequeue α)
    (h : NewConDequeue fuel c = some q) (k : Nat) : NewConDequeue (fuel + k) c = some q := by
  unfold NewConDequeue at h ⊢
  by_cases hc : c < _MinCap
  · rw [if_pos hc] at h ⊢; exact h
  · rw [if_neg hc] at h ⊢
    unfold nextTwoPower at h ⊢
    cases hl : nextTwoPowerLoop fuel 32 c with
    | none => rw [hl] at h; simp at h
    | some r => rw [nextTwoPowerLoop_mono c fuel 32 r hl k]; rw [hl] at h; exact h

/-- The constructor returns a deque only for a request of at most `2^44`:
above `2^62` the loop of `nextTwoPower` never exits, and between the two the
rounded capacity exceeds `maxSliceLen`, so `makeslice` panics. -/
theorem NewConDequeue_some_le {α : Type} [Inhabited α] (fuel : Nat) (c : Int)
    (q : ConDequeue α) (h : NewConDequeue fuel c = some q) : c ≤ 2 ^ 44 := by
  by_contra hcon
  have hn : ¬ (c < _MinCap) := by simp only [_MinCap]; omega
  have h32 : ((2 : Int) ^ 5) = 32 := by norm_num
  rw [NewConDequeue, if_neg hn, nextTwoPower] at h
  cases hl : nextTwoPowerLoop fuel 32 c with
  | none => rw [hl] at h; simp at h
  | some r =>
    rw [hl] at h
    by_cases hc : c ≤ 2 ^ 62
    · obtain ⟨k, _, _, hk3, hk4, _⟩ :=
        nextTwoPowerLoop_spec c hc 57 5 (fuel + 58) (by omega) (by omega)
      rw [h32, nextTwoPowerLoop_mono c fuel 32 r hl 58] at hk3
      have hr : r = 2 ^ k := Option.some.inj hk3
      have hbig : ¬ (0 ≤ r ∧ r ≤ maxSliceLen) := by
        simp only [maxSliceLen]; omega
      simp only [Option.bind, makeslice, if_neg hbig] at h
      simp at h
    · have hd := nextTwoPowerLoop_diverges c (by omega) 57 5 fuel rfl
      rw [h32, hl] at hd
      simp at hd

/-- C8 as stated fails: for the request `2^62 + 1` (a valid non-negative
64-bit `int`) `NewConDequeue` returns no deque, whatever the fuel: the loop of
`nextTwoPower` overflows and never exits.  Nor does it return a deque for the
request `2^44 + 1`: the rounded capacity `2^45` is refused by `makeslice`. -/
theorem NewConDequeue_large_request :
    (¬ ∃ (fuel : Nat) (q : ConDequeue (Option Nat)),
      NewConDequeue fuel (2 ^ 62 + 1) = some q) ∧
    (¬ ∃ (fuel : Nat) (q : ConDequeue (Option Nat)),
      NewConDequeue fuel (2 ^ 44 + 1) = some q) := by
  constructor
  · rintro ⟨fuel, q, h⟩
    have hd := nextTwoPowerLoop_diverges (2 ^ 62 + 1) (by decide) 57 5 fuel rfl
    have h32 : ((2 : Int) ^ 5) = 32 := by norm_num
    rw [h32] at hd
    have hn : ¬ ((2 : Int) ^ 62 + 1 < _MinCap) := by decide
    rw [NewConDequeue, if_neg hn, nextTwoPower, hd] at h
    simp at h
  · rintro ⟨fuel, q, h⟩
    have := NewConDequeue_some_le fuel _ q h
    omega

/-- Every deque returned by `NewConDequeue` is a valid empty deque. -/
theorem NewConDequeue_rep {α : Type} [Inhabited α] (fuel : Nat) (c : Int) (q : ConDequeue α)
    (h : NewConDequeue fuel c = some q) : q.Rep [] := by
  have hc : c ≤ 2 ^ 44 := NewConDequeue_some_le fuel c q h
  obtain ⟨k, hk5, _, hq, _, _⟩ := @NewConDequeue_eq α _ c hc (fuel + 58) (by omega)
  rw [NewConDequeue_mono fuel c q h 58] at hq
  have hq' := Option.some.inj hq
  subst hq'
  have h32 : (32 : Int) ≤ 2 ^ k := by
    have : (2 : Int) ^ 5 ≤ 2 ^ k := pow_le_pow_right₀ (by norm_num) hk5
    norm_num at this; exact this
  refine ⟨⟨⟨k, rfl⟩, h32, ?_, ?_, ?_, ?_, ?_, ?_⟩, rfl, ?_⟩ <;> dsimp only
  · simp
  · omega
  · omega
  · omega
  · omega
  · simp
  · intro i hi; simp at hi

namespace DequeOp

variable {α : Type} [Inhabited α]

/-- One call on a deque holding `l` does what the reference list does. -/
theorem apply_sim {q : ConDequeue α} {l l1 : List α} {v : Option α} (op : DequeOp α)
    (h : q.Rep l) (href : refApply l op = some (l1, v)) :
    ∃ q1, apply q op = .ret q1 v ∧ q1.Rep l1 := by
  cases op with
  | fpush x =>
    obtain ⟨q1, h1, h2⟩ := h.FPush x
    simp only [refApply, Option.some.injEq, Prod.mk.injEq] at href
    obtain ⟨rfl, rfl⟩ := href
    exact ⟨q1, by simp [apply, h1, Outcome.andThen], h2⟩
  | bpush x =>
    obtain ⟨q1, h1, h2⟩ := h.BPush x
    simp only [refApply, Option.some.injEq, Prod.mk.injEq] at href
    obtain ⟨rfl, rfl⟩ := href
    exact ⟨q1, by simp [apply, h1, Outcome.andThen], h2⟩
  | fpop =>
    cases l with
    | nil => simp [refApply] at href
    | cons a t =>
      simp only [refApply, Option.some.injEq, Prod.mk.injEq] at href
      obtain ⟨rfl, rfl⟩ := href
      obtain ⟨q1, h1, h2⟩ := h.FPop
      exact ⟨q1, by simp [apply, h1, Outcome.andThen], h2⟩
  | bpop =>
    cases hl : l.getLast? with
    | none => simp [refApply, hl] at href
    | some a =>
      simp only [refApply, hl, Option.some.injEq, Prod.mk.injEq] at href
      obtain ⟨rfl, rfl⟩ := href
      have e : l.dropLast ++ [a] = l := List.dropLast_append_getLast? a (by simp [hl])
      rw [← e] at h
      obtain ⟨q1, h1, h2⟩ := h.BPop
      exact ⟨q1, by simp [apply, h1, Outcome.andThen], h2⟩

/-- A sequence of calls on a deque holding `l` does what the reference list
does, as long as the reference never pops from the empty list. -/
theorem run_sim (ops : List (DequeOp α)) : ∀ {q : ConDequeue α} {l l1 outs : List α},
    q.Rep l → refRun l ops = some (l1, outs) →
    ∃ q1, run q ops = .ret q1 outs ∧ q1.Rep l1 := by
  induction ops with
  | nil =>
    intro q l l1 outs h href
    simp only [refRun, Option.some.injEq, Prod.mk.injEq] at href
    obtain ⟨rfl, rfl⟩ := href
    exact ⟨q, rfl, h⟩
  | cons op ops ih =>
    intro q l l1 outs h href
    simp only [refRun] at href
    cases h1 : refApply l op with
    | none => simp [h1] at href
    | some r =>
      obtain ⟨l2, v⟩ := r
      simp only [h1, Option.bind] at href
      cases h2 : refRun l2 ops with
      | none => simp [h2] at href
      | some r2 =>
        obtain ⟨l3, vs⟩ := r2
        simp only [h2, Option.some.injEq, Prod.mk.injEq] at href
        obtain ⟨rfl, rfl⟩ := href
        obtain ⟨q2, ha, hr2⟩ := apply_sim op h h1
        obtain ⟨q3, hb, hr3⟩ := ih hr2 h2
        exact ⟨q3, by simp [run, ha, hb, Outcome.andThen], hr3⟩

theorem pushes_cons (op : DequeOp α) (ops : List (DequeOp α)) :
    pushes (op :: ops) = (if isPush op = true then 1 else 0) + pushes ops := by
  unfold pushes
  by_cases h : isPush op = true <;> simp [List.filter_cons, h] <;> omega

theorem pops_cons (op : DequeOp α) (ops : List (DequeOp α)) :
    pops (op :: ops) = (if isPush op = true then 0 else 1) + pops ops := by
  unfold pops
  by_cases h : isPush op = true <;> simp [List.filter_cons, h] <;> omega

/-- Length bookkeeping of one reference call. -/
theorem refApply_length {l l1 : List α} {v : Option α} (op : DequeOp α)
    (h : refApply l op = some (l1, v)) :
    l1.length + (if isPush op = true then 0 else 1) =
      l.length + (if isPush op = true then 1 else 0) := by
  cases op with
  | fpush x =>
    simp only [refApply, Option.some.injEq, Prod.mk.injEq] at h
    obtain ⟨rfl, rfl⟩ := h
    simp [isPush]
  | bpush x =>
    simp only [refApply, Option.some.injEq, Prod.mk.injEq] at h
    obtain ⟨rfl, rfl⟩ := h
    simp [isPush]
  | fpop =>
    cases l with
    | nil => simp [refApply] at h
    | cons a t =>
      simp only [refApply, Option.some.injEq, Prod.mk.injEq] at h
      obtain ⟨rfl, rfl⟩ := h
      simp [isPush]
  | bpop =>
    cases hl : l.getLast? with
    | none => simp [refApply, hl] at h
    | some a =>
      simp only [refApply, hl, Option.some.injEq, Prod.mk.injEq] at h
      obtain ⟨rfl, rfl⟩ := h
      have hne : l ≠ [] := by rintro rfl; simp at hl
      have hpos := List.length_pos.mpr hne
      have hdl := List.length_dropLast l
      simp only [isPush, Bool.false_eq_true, if_false]
      omega

/-- Length bookkeeping of the reference run. -/
theorem refRun_length (ops : List (DequeOp α)) : ∀ {l l1 outs : List α},
    refRun l ops = some (l1, outs) → l1.length + pops ops = l.length + pushes ops := by
  induction ops with
  | nil =>
    intro l l1 outs href
    simp only [refRun, Option.some.injEq, Prod.mk.injEq] at href
    obtain ⟨rfl, rfl⟩ := href
    simp [pops, pushes]
  | cons op ops ih =>
    intro l l1 outs href
    simp only [refRun] at href
    cases h1 : refApply l op with
    | none => simp [h1] at href
    | some r =>
      obtain ⟨l2, v⟩ := r
      simp only [h1, Option.bind] at href
      cases h2 : refRun l2 ops with
      | none => simp [h2] at href
      | some r2 =>
        obtain ⟨l3, vs⟩ := r2
        simp only [h2, Option.some.injEq, Prod.mk.injEq] at href
        obtain ⟨rfl, rfl⟩ := href
        have e1 := ih h2
        have e2 := refApply_length op h1
        rw [pushes_cons, pops_cons]
        omega

end DequeOp

namespace DequeOp

variable {α : Type} [Inhabited α]

theorem refRun_append (ops1 ops2 : List (DequeOp α)) : ∀ (l : List α),
    refRun l (ops1 ++ ops2) =
      (refRun l ops1).bind fun r => (refRun r.1 ops2).bind fun r2 => some (r2.1, r.2 ++ r2.2) := by
  induction ops1 with
  | nil =>
    intro l
    cases h : refRun l ops2 <;> simp [refRun, h]
  | cons op ops ih =>
    intro l
    rw [List.cons_append]
    simp only [refRun]
    cases h1 : refApply l op with
    | none => simp
    | some r =>
      simp only [Option.some_bind]
      rw [ih]
      cases h2 : refRun r.1 ops with
      | none => simp
      | some r2 =>
        simp only [Option.some_bind]
        cases h3 : refRun r2.1 ops2 with
        | none => simp
        | some r3 => simp [List.append_assoc]

theorem refRun_bpush (xs : List α) : ∀ l : List α,
    refRun l (xs.map bpush) = some (l ++ xs, []) := by
  induction xs with
  | nil => intro l; simp [refRun]
  | cons x xs ih => intro l; simp [refRun, refApply, ih]

theorem refRun_fpush (xs : List α) : ∀ l : List α,
    refRun l (xs.map fpush) = some (xs.reverse ++ l, []) := by
  induction xs with
  | nil => intro l; simp [refRun]
  | cons x xs ih => intro l; simp [refRun, refApply, ih]

theorem refRun_fpop (l : List α) : ∀ r : List α,
    refRun (l ++ r) (List.replicate l.length fpop) = some (r, l) := by
  induction l with
  | nil => intro r; simp [refRun]
  | cons a t ih => intro r; simp [refRun, refApply, List.replicate_succ, ih]

theorem refRun_bpop (l : List α) : ∀ r : List α,
    refRun (r ++ l.reverse) (List.replicate l.length bpop) = some (r, l) := by
  induction l with
  | nil => intro r; simp [refRun]
  | cons a t ih =>
    intro r
    have e : r ++ (a :: t).reverse = (r ++ t.reverse) ++ [a] := by simp
    rw [e]
    simp only [List.length_cons, List.replicate_succ, refRun, refApply,
      List.getLast?_append, List.getLast?_singleton, List.dropLast_concat]
    simp [ih]

end DequeOp

open DequeOp

/-- C1: on the deque `q` returned by `NewConDequeue c` (any `c`, so in
particular any `c ≥ 0`), every sequence `ops` of FPush/BPush/FPop/BPop calls
that never pops from an empty deque (the reference run on a plain list
succeeds) runs without panic, whatever resizes it triggers; the pops return,
in call order, exactly the elements `outs` the reference list returns;
afterwards `Len()` is the reference length, `Len()` plus the number of pops is
the number of pushes, and `At(i)` is the `i`-th reference element for every
`0 ≤ i < Len()`. -/
theorem ConDequeue_refines_list {α : Type} [Inhabited α] (c : Int) (fuel : Nat)
    (q : ConDequeue α) (hq : NewConDequeue fuel c = some q)
    (ops : List (DequeOp α)) (l outs : List α) (href : refRun [] ops = some (l, outs)) :
    ∃ q', run q ops = .ret q' outs ∧ q'.Len = l.length ∧
      q'.Len + (pops ops : Int) = (pushes ops : Int) ∧
      ∀ (i : Nat) (hi : i < l.length), q'.At (i : Int) = .ret q' l[i] := by
  obtain ⟨q', h1, h2⟩ := run_sim ops (NewConDequeue_rep fuel c q hq) href
  have hlen := refRun_length ops href
  refine ⟨q', h1, h2.2.1, ?_, fun i hi => h2.At i hi⟩
  have : q'.Len = l.length := h2.2.1
  rw [this]
  simp only [List.length_nil] at hlen
  omega

/-- C7: starting from any valid empty deque, pushing `xs` and then popping
`xs.length` times from the same end returns `xs` reversed, popping from the
opposite end returns `xs` in order, and the deque is empty afterwards (all
four combinations of ends). -/
theorem push_pop_round_trip {α : Type} [Inhabited α] (q : ConDequeue α) (hv : q.Valid)
    (he : q.size = 0) (xs : List α) :
    (∃ q', run q (xs.map bpush ++ List.replicate xs.length bpop) = .ret q' xs.reverse ∧
      q'.Len = 0) ∧
    (∃ q', run q (xs.map fpush ++ List.replicate xs.length fpop) = .ret q' xs.reverse ∧
      q'.Len = 0) ∧
    (∃ q', run q (xs.map bpush ++ List.replicate xs.length fpop) = .ret q' xs ∧
      q'.Len = 0) ∧
    (∃ q', run q (xs.map fpush ++ List.replicate xs.length bpop) = .ret q' xs ∧
      q'.Len = 0) := by
  have hr : q.Rep [] := ⟨hv, by simpa using he, fun i hi => by simp at hi⟩
  have fin : ∀ (ops : List (DequeOp α)) (outs : List α), refRun [] ops = some ([], outs) →
      ∃ q', run q ops = .ret q' outs ∧ q'.Len = 0 := by
    intro ops outs href
    obtain ⟨q', h1, h2⟩ := run_sim ops hr href
    exact ⟨q', h1, by simpa [ConDequeue.Len] using h2.2.1⟩
  refine ⟨fin _ _ ?_, fin _ _ ?_, fin _ _ ?_, fin _ _ ?_⟩
  · rw [refRun_append, refRun_bpush]
    have := refRun_bpop xs.reverse []
    simp only [List.reverse_reverse, List.nil_append, List.length_reverse] at this
    simp [this]
  · rw [refRun_append, refRun_fpush]
    have := refRun_fpop xs.reverse []
    simp only [List.append_nil, List.length_reverse] at this
    simp [this]
  · rw [refRun_append, refRun_bpush]
    have := refRun_fpop xs []
    simp only [List.append_nil] at this
    simp [this]
  · rw [refRun_append, refRun_fpush]
    have := refRun_bpop xs.reverse.reverse []
    simp only [List.nil_append, List.length_reverse] at this
    rw [List.reverse_reverse xs] at this
    simp [this]

theorem sampleDeque_valid : sampleDeque.Valid :=
  ⟨⟨5, rfl⟩, by decide, rfl, by decide, by decide, by decide, by decide, by decide⟩

theorem emptyDeque_valid : emptyDeque.Valid :=
  ⟨⟨5, rfl⟩, by decide, rfl, by decide, by decide, by decide, by decide, by decide⟩

/-- Witness for C1: five calls on the deque made by `NewConDequeue 0`. -/
theorem ConDequeue_refines_list_witness :
    NewConDequeue 0 0 = some emptyDeque ∧
    refRun [] [bpush (some 1), fpush (some 2), bpush (some 3), fpop, bpop] =
      some ([some 1], [some 2, some 3]) ∧
    ∃ q', run emptyDeque
        [bpush (some 1), fpush (some 2), bpush (some 3), fpop, bpop] =
          .ret q' [some 2, some 3] ∧
      q'.Len = ([some 1] : List (Option Nat)).length ∧
      q'.Len + (pops [bpush (some 1), fpush (some 2), bpush (some 3), fpop, bpop] : Int) =
        (pushes [bpush (some 1), fpush (some 2), bpush (some 3), fpop, bpop] : Int) ∧
      ∀ (i : Nat) (hi : i < ([some 1] : List (Option Nat)).length),
        q'.At (i : Int) = .ret q' ([some 1] : List (Option Nat))[i] :=
  ⟨rfl, rfl, ConDequeue_refines_list 0 0 _ rfl _ _ _ rfl⟩

/-- Witness for C7: two elements pushed on the empty deque of capacity 32. -/
theorem push_pop_round_trip_witness :
    emptyDeque.Valid ∧ emptyDeque.size = 0 ∧
    (∃ q', run emptyDeque
        ([some 1, some 2].map bpush ++ List.replicate [some 1, some 2].length bpop) =
          .ret q' [some 1, some 2].reverse ∧ q'.Len = 0) ∧
    (∃ q', run emptyDeque
        ([some 1, some 2].map fpush ++ List.replicate [some 1, some 2].length fpop) =
          .ret q' [some 1, some 2].reverse ∧ q'.Len = 0) ∧
    (∃ q', run emptyDeque
        ([some 1, some 2].map bpush ++ List.replicate [some 1, some 2].length fpop) =
          .ret q' [some 1, some 2] ∧ q'.Len = 0) ∧
    (∃ q', run emptyDeque
        ([some 1, some 2].map fpush ++ List.replicate [some 1, some 2].length bpop) =
          .ret q' [some 1, some 2] ∧ q'.Len = 0) :=
  ⟨emptyDeque_valid, rfl, push_pop_round_trip emptyDeque emptyDeque_valid rfl [some 1, some 2]⟩

namespace ConDequeue

variable {α : Type} [Inhabited α]

theorem Valid.rd_ok {q : ConDequeue α} (hv : q.Valid) (i : Int) :
    ∃ v, q.rd (i % q.cap) = .ret q v := by
  obtain ⟨v, h⟩ := hv.slot i
  exact ⟨v, by simp [rd, h]⟩

theorem Valid.wr_ok {q : ConDequeue α} (hv : q.Valid) (i : Int) (x : α) :
    ∃ q', q.wr (i % q.cap) x = .ret q' () := by
  have h0 : 0 ≤ i % q.cap := Int.emod_nonneg _ (ne_of_gt hv.cap_pos)
  have h1 : i % q.cap < q.buf.length := by rw [hv.len]; exact Int.emod_lt_of_pos _ hv.cap_pos
  refine ⟨{ q with buf := q.buf.set (i % q.cap).toNat x }, ?_⟩
  simp [wr, setI_eq_some _ _ _ h0 h1]

theorem Valid.FPop_ok {q : ConDequeue α} (hv : q.Valid) (h : q.size ≠ 0) :
    ∃ q' v, q.FPop = .ret q' v := by
  have hr := hv.rep
  have hlen : (q.toList.length : Int) = q.size := hr.2.1.symm
  cases hl : q.toList with
  | nil => rw [hl] at hlen; simp at hlen; omega
  | cons a t =>
    rw [hl] at hr
    obtain ⟨q', h1, _⟩ := hr.FPop
    exact ⟨q', a, h1⟩

theorem Valid.BPop_ok {q : ConDequeue α} (hv : q.Valid) (h : q.size ≠ 0) :
    ∃ q' v, q.BPop = .ret q' v := by
  have hr := hv.rep
  have hlen : (q.toList.length : Int) = q.size := hr.2.1.symm
  rcases List.eq_nil_or_concat q.toList with hl | ⟨t, a, hl⟩
  · rw [hl] at hlen; simp at hlen; omega
  · rw [hl, List.concat_eq_append] at hr
    obtain ⟨q', h1, _⟩ := hr.BPop
    exact ⟨q', a, h1⟩

end ConDequeue

/-- C4: on a valid deque state, FPop, BPop, Front and Back panic exactly when
`size = 0`; `At i` and `Set i x` panic exactly when `i < 0` or `i ≥ size`; and
a call that panics leaves the state (buffer, head, tail, size, capacity) as it
was before the call. -/
theorem misuse_faults {α : Type} [Inhabited α] (q : ConDequeue α) (hv : q.Valid) :
    (q.FPop.failed = true ↔ q.size = 0) ∧ (q.BPop.failed = true ↔ q.size = 0) ∧
    (q.Front.failed = true ↔ q.size = 0) ∧ (q.Back.failed = true ↔ q.size = 0) ∧
    (∀ i : Int, (q.At i).failed = true ↔ (i < 0 ∨ i ≥ q.size)) ∧
    (∀ (i : Int) (x : α), (q.Set i x).failed = true ↔ (i < 0 ∨ i ≥ q.size)) ∧
    (q.FPop.failed = true → q.FPop.state = q) ∧ (q.BPop.failed = true → q.BPop.state = q) ∧
    (q.Front.failed = true → q.Front.state = q) ∧ (q.Back.failed = true → q.Back.state = q) ∧
    (∀ i : Int, (q.At i).failed = true → (q.At i).state = q) ∧
    (∀ (i : Int) (x : α), (q.Set i x).failed = true → (q.Set i x).state = q) := by
  have hs0 := hv.size_nonneg
  have hfpop : (q.size = 0 → q.FPop = .fault q) ∧ (q.size ≠ 0 → ∃ q' v, q.FPop = .ret q' v) :=
    ⟨fun h => by simp [ConDequeue.FPop, h], hv.FPop_ok⟩
  have hbpop : (q.size = 0 → q.BPop = .fault q) ∧ (q.size ≠ 0 → ∃ q' v, q.BPop = .ret q' v) :=
    ⟨fun h => by simp [ConDequeue.BPop, h], hv.BPop_ok⟩
  have hfront : (q.size = 0 → q.Front = .fault q) ∧
      (q.size ≠ 0 → ∃ q' v, q.Front = .ret q' v) := by
    refine ⟨fun h => by simp [ConDequeue.Front, h], fun h => ?_⟩
    obtain ⟨v, hrd⟩ := hv.rd_ok q.head
    rw [Int.emod_eq_of_lt hv.head_nonneg hv.head_lt] at hrd
    have : ¬ q.size ≤ 0 := by omega
    exact ⟨q, v, by simp [ConDequeue.Front, this, hrd]⟩
  have hback : (q.size = 0 → q.Back = .fault q) ∧
      (q.size ≠ 0 → ∃ q' v, q.Back = .ret q' v) := by
    refine ⟨fun h => by simp [ConDequeue.Back, h], fun h => ?_⟩
    obtain ⟨v, hrd⟩ := hv.rd_ok (q.tail - 1)
    have : ¬ q.size ≤ 0 := by omega
    exact ⟨q, v, by simp [ConDequeue.Back, this, ConDequeue.prev, hv.mask, hrd]⟩
  have hat : ∀ i : Int, ((i < 0 ∨ i ≥ q.size) → q.At i = .fault q) ∧
      (¬ (i < 0 ∨ i ≥ q.size) → ∃ q' v, q.At i = .ret q' v) := by
    intro i
    refine ⟨fun h => by simp [ConDequeue.At, h], fun h => ?_⟩
    obtain ⟨v, hrd⟩ := hv.rd_ok (q.head + i)
    exact ⟨q, v, by rw [ConDequeue.At, if_neg h, hv.mask, hrd]⟩
  have hset : ∀ (i : Int) (x : α), ((i < 0 ∨ i ≥ q.size) → q.Set i x = .fault q) ∧
      (¬ (i < 0 ∨ i ≥ q.size) → ∃ q' v, q.Set i x = .ret q' v) := by
    intro i x
    refine ⟨fun h => by simp [ConDequeue.Set, h], fun h => ?_⟩
    obtain ⟨q', hwr⟩ := hv.wr_ok (q.head + i) x
    exact ⟨q', (), by rw [ConDequeue.Set, if_neg h, hv.mask, hwr]⟩
  have key : ∀ {β : Type} (o : Outcome (ConDequeue α) β) (P : Prop),
      (P → o = .fault q) → (¬ P → ∃ q' v, o = .ret q' v) →
      (o.failed = true ↔ P) ∧ (o.failed = true → o.state = q) := by
    intro β o P h1 h2
    by_cases hP : P
    · rw [h1 hP]; simp [Outcome.failed, Outcome.state, hP]
    · obtain ⟨q', v, e⟩ := h2 hP
      rw [e]; simp [Outcome.failed, hP]
  have k1 := key q.FPop _ hfpop.1 hfpop.2
  have k2 := key q.BPop _ hbpop.1 hbpop.2
  have k3 := key q.Front _ hfront.1 hfront.2
  have k4 := key q.Back _ hback.1 hback.2
  have k5 := fun i => key (q.At i) _ (hat i).1 (hat i).2
  have k6 := fun i x => key (q.Set i x) _ (hset i x).1 (hset i x).2
  exact ⟨k1.1, k2.1, k3.1, k4.1, fun i => (k5 i).1, fun i x => (k6 i x).1,
    k1.2, k2.2, k3.2, k4.2, fun i => (k5 i).2, fun i x => (k6 i x).2⟩

/-- Witness for C4 on the sample state (two elements, wrapped around). -/
theorem misuse_faults_witness :
    sampleDeque.Valid ∧
    (sampleDeque.FPop.failed = true ↔ sampleDeque.size = 0) ∧
    (∀ i : Int, (sampleDeque.At i).failed = true ↔ (i < 0 ∨ i ≥ sampleDeque.size)) ∧
    (∀ i : Int, (sampleDeque.At i).failed = true → (sampleDeque.At i).state = sampleDeque) :=
  ⟨sampleDeque_valid, (misuse_faults sampleDeque sampleDeque_valid).1,
    (misuse_faults sampleDeque sampleDeque_valid).2.2.2.2.1,
    (misuse_faults sampleDeque sampleDeque_valid).2.2.2.2.2.2.2.2.2.2.1⟩

namespace ConDequeue

variable {α : Type} [Inhabited α]

/-- One iteration of the `n > 0` loop of `Rotate` moves the front element to
the back. -/
theorem Rep.rotateFrontLoop {l : List α} : ∀ (k : Nat) {q : ConDequeue α}, q.Rep l →
    0 < q.size → q.size < q.cap →
    ∃ q', rotateFrontLoop k q = .ret q' () ∧ q'.Rep (l.rotate k) ∧ q'.cap = q.cap := by
  intro k
  induction k generalizing l with
  | zero => intro q h _ _; exact ⟨q, rfl, by simpa using h, rfl⟩
  | succ k ih =>
    intro q h hpos hlt
    obtain ⟨hv, hs, hel⟩ := h
    cases l with
    | nil => simp at hs; omega
    | cons a t =>
      have hcp := hv.cap_pos
      simp only [List.length_cons] at hs hel
      have hh0 := hv.head_nonneg
      have hh1 := hv.head_lt
      have ht0 := hv.tail_nonneg
      have ht1 := hv.tail_lt
      have hhe : q.head % q.cap = q.head := Int.emod_eq_of_lt hh0 hh1
      have hrd : getI q.buf q.head = some a := by
        have := hel 0 (by omega)
        simpa [hhe] using this
      have hne : q.tail ≠ q.head := by
        intro hcon
        rw [hv.tail_eq, ← hhe] at hcon
        have := emod_inj _ _ _ hcp hcon (by rw [hhe]; omega) (by rw [hhe]; omega)
        rw [hhe] at this
        omega
      have hrep : Rep ({ buf := (q.buf.set q.tail.toNat a).set q.head.toNat default,
                         cap := q.cap, size := q.size, head := (q.head + 1) % q.cap,
                         tail := (q.tail + 1) % q.cap } : ConDequeue α) (t ++ [a]) := by
        refine ⟨?_, ?_, ?_⟩
        · refine ⟨hv.pow, hv.minCap, ?_, hv.size_nonneg, hv.size_le,
            Int.emod_nonneg _ (ne_of_gt hcp), Int.emod_lt_of_pos _ hcp, ?_⟩ <;> dsimp only
          · rw [List.length_set, List.length_set]; exact hv.len
          · rw [hv.tail_eq, Int.emod_add_emod, Int.emod_add_emod]; congr 1; ring
        · simp only [List.length_append, List.length_singleton]; omega
        · intro i hi
          simp only [List.length_append, List.length_singleton] at hi
          dsimp only
          have e : ((q.head + 1) % q.cap + (i : Int)) % q.cap
              = (q.head + ((i + 1 : Nat) : Int)) % q.cap := by
            rw [Int.emod_add_emod]; congr 1; push_cast; ring
          rw [e]
          have hnh : (q.head + ((i + 1 : Nat) : Int)) % q.cap ≠ q.head := by
            intro hcon
            rw [← hhe] at hcon
            have := emod_inj _ _ _ hcp hcon (by rw [hhe]; omega) (by rw [hhe]; omega)
            rw [hhe] at this
            omega
          rw [getI_set_other _ _ _ _ hh0 hnh]
          by_cases hil : i < t.length
          · have hnt : (q.head + ((i + 1 : Nat) : Int)) % q.cap ≠ q.tail := by
              intro hcon
              rw [hv.tail_eq] at hcon
              have := emod_inj _ _ _ hcp hcon (by omega) (by omega)
              omega
            rw [getI_set_other _ _ _ _ ht0 hnt, hel (i + 1) (by omega),
              List.getElem?_append_left hil]
            simp
          · have hie : i = t.length := by omega
            subst hie
            have e2 : (q.head + ((t.length + 1 : Nat) : Int)) % q.cap = q.tail := by
              rw [hv.tail_eq]; congr 1; omega
            rw [e2, getI_set_same _ _ _ ht0 (by rw [hv.len]; exact ht1)]
            simp
      obtain ⟨q', h1, h2, h3⟩ := ih hrep hpos hlt
      refine ⟨q', ?_, ?_, h3⟩
      · rw [ConDequeue.rotateFrontLoop]
        simp only [Outcome.andThen, rd, hrd, wr]
        rw [setI_eq_some _ _ _ ht0 (by rw [hv.len]; exact ht1)]
        simp only
        rw [setI_eq_some _ _ _ hh0 (by rw [List.length_set, hv.len]; exact hh1)]
        simp only [next, hv.mask]
        exact h1
      · rw [List.rotate_cons_succ]; exact h2

/-- One iteration of the `n < 0` loop of `Rotate` moves the back element to
the front; after `k` iterations the old contents are the new ones rotated by
`k`. -/
theorem Rep.rotateBackLoop {l : List α} : ∀ (k : Nat) {q : ConDequeue α}, q.Rep l →
    0 < q.size → q.size < q.cap →
    ∃ q' l', rotateBackLoop k q = .ret q' () ∧ q'.Rep l' ∧ l'.rotate k = l ∧
      q'.cap = q.cap := by
  intro k
  induction k generalizing l with
  | zero => intro q h _ _; exact ⟨q, l, rfl, h, by simp, rfl⟩
  | succ k ih =>
    intro q h hpos hlt
    obtain ⟨hv, hs, hel⟩ := h
    rcases List.eq_nil_or_concat l with hl | ⟨t, a, hl⟩
    · subst hl; simp at hs; omega
    · rw [List.concat_eq_append] at hl
      subst hl
      have hcp := hv.cap_pos
      simp only [List.length_append, List.length_singleton] at hs hel
      have hp0 : 0 ≤ (q.head - 1) % q.cap := Int.emod_nonneg _ (ne_of_gt hcp)
      have hp1 : (q.head - 1) % q.cap < q.cap := Int.emod_lt_of_pos _ hcp
      have ht0 : 0 ≤ (q.tail - 1) % q.cap := Int.emod_nonneg _ (ne_of_gt hcp)
      have ht1 : (q.tail - 1) % q.cap < q.cap := Int.emod_lt_of_pos _ hcp
      have hte : (q.tail - 1) % q.cap = (q.head + (t.length : Int)) % q.cap := by
        rw [hv.tail_eq, emod_sub_emod_left]; congr 1; omega
      have hrd : getI q.buf ((q.tail - 1) % q.cap) = some a := by
        rw [hte, hel t.length (by omega)]
        simp
      have hne : (q.tail - 1) % q.cap ≠ (q.head - 1) % q.cap := by
        intro hcon
        rw [hte] at hcon
        have := emod_inj _ _ _ hcp hcon (by omega) (by omega)
        omega
      have hrep : Rep ({ buf := (q.buf.set ((q.head - 1) % q.cap).toNat a).set
                                  ((q.tail - 1) % q.cap).toNat default,
                         cap := q.cap, size := q.size, head := (q.head - 1) % q.cap,
                         tail := (q.tail - 1) % q.cap } : ConDequeue α) (a :: t) := by
        refine ⟨?_, ?_, ?_⟩
        · refine ⟨hv.pow, hv.minCap, ?_, hv.size_nonneg, hv.size_le, hp0, hp1, ?_⟩ <;>
            dsimp only
          · rw [List.length_set, List.length_set]; exact hv.len
          · rw [hv.tail_eq, emod_sub_emod_left, Int.emod_add_emod]; congr 1; ring
        · simp only [List.length_cons]; omega
        · intro i hi
          simp only [List.length_cons] at hi
          dsimp only
          cases i with
          | zero =>
            simp only [Nat.cast_zero, add_zero, Int.emod_emod, List.getElem?_cons_zero]
            rw [getI_set_other _ _ _ _ ht0 (Ne.symm hne)]
            exact getI_set_same _ _ _ hp0 (by rw [hv.len]; exact hp1)
          | succ j =>
            have hj : j < t.length := by omega
            have e : ((q.head - 1) % q.cap + ((j + 1 : Nat) : Int)) % q.cap
                = (q.head + (j : Int)) % q.cap := by
              rw [Int.emod_add_emod]; congr 1; push_cast; ring
            have hn1 : (q.head + (j : Int)) % q.cap ≠ (q.tail - 1) % q.cap := by
              intro hcon
              rw [hte] at hcon
              have := emod_inj _ _ _ hcp hcon (by omega) (by omega)
              omega
            have hn2 : (q.head + (j : Int)) % q.cap ≠ (q.head - 1) % q.cap := by
              intro hcon
              have := emod_inj _ _ _ hcp hcon (by omega) (by omega)
              omega
            rw [e, getI_set_other _ _ _ _ ht0 hn1, getI_set_other _ _ _ _ hp0 hn2,
              hel j (by omega), List.getElem?_append_left hj, List.getElem?_cons_succ]
      obtain ⟨q', l', h1, h2, h3, h4⟩ := ih hrep hpos hlt
      refine ⟨q', l', ?_, h2, ?_, h4⟩
      · rw [ConDequeue.rotateBackLoop]
        simp only [Outcome.andThen, rd, prev, hv.mask, hrd, wr]
        rw [setI_eq_some _ _ _ hp0 (by rw [hv.len]; exact hp1)]
        simp only
        rw [setI_eq_some _ _ _ ht0 (by rw [List.length_set, hv.len]; exact ht1)]
        exact h1
      · rw [← List.rotate_rotate, h3, List.rotate_cons_succ, List.rotate_zero]

end ConDequeue

theorem tmod_gt_neg (n s : Int) (hs : 0 < s) : -s < n.tmod s := by
  lift s to Nat using le_of_lt hs with S
  cases n with
  | ofNat m =>
    have : 0 ≤ (Int.ofNat m).tmod (S : Int) := Int.tmod_nonneg (S : Int) (Int.ofNat_nonneg m)
    omega
  | negSucc m =>
    have hS : 0 < S := by omega
    have := Nat.mod_lt (m + 1) hS
    have e : (Int.negSucc m).tmod (S : Int) = -(((m + 1) % S : Nat) : Int) := rfl
    rw [e]; omega

theorem emod_eq_tmod_emod (n s : Int) : n % s = (n.tmod s) % s := by
  conv_lhs => rw [← Int.tmod_add_tdiv n s]
  exact Int.add_mul_emod_self_left _ _ _

/-- Go's remainder against the Euclidean one. -/
theorem emod_of_tmod (n s : Int) (hs : 0 < s) :
    n % s = if 0 ≤ n.tmod s then n.tmod s else n.tmod s + s := by
  have h1 := tmod_gt_neg n s hs
  have h2 := Int.tmod_lt_of_pos n hs
  rw [emod_eq_tmod_emod]
  split
  · exact Int.emod_eq_of_lt (by omega) h2
  · rw [← Int.add_emod_self]
    exact Int.emod_eq_of_lt (by omega) (by omega)

namespace ConDequeue

variable {α : Type} [Inhabited α]

theorem Valid.full_iff {q : ConDequeue α} (hv : q.Valid) (hpos : 0 < q.size) :
    q.head = q.tail ↔ q.size = q.cap := by
  have hcp := hv.cap_pos
  have hh0 := hv.head_nonneg
  have hh1 := hv.head_lt
  have hsl := hv.size_le
  have hhe : q.head % q.cap = q.head := Int.emod_eq_of_lt hh0 hh1
  constructor
  · intro h
    by_contra hne
    have hcon : (q.head + q.size) % q.cap = q.head % q.cap := by
      rw [← hv.tail_eq, ← h, hhe]
    have := emod_inj _ _ _ hcp hcon (by omega) (by omega)
    omega
  · intro h
    rw [hv.tail_eq, h, Int.add_emod_self, hhe]

/-- The call `Rotate n` turns the contents `l` into `l` rotated left by `n mod size`. -/
theorem Rep.Rotate {q : ConDequeue α} {l : List α} (h : q.Rep l) (n : Int)
    (hs : 1 < q.size) :
    ∃ q', q.Rotate n = .ret q' () ∧ q'.Rep (l.rotate (n % q.size).toNat) ∧
      q'.cap = q.cap := by
  have hv := h.1
  have hsz := h.2.1
  have hcp := hv.cap_pos
  have hsl := hv.size_le
  have hpos : 0 < q.size := by omega
  have hb1 := tmod_gt_neg n q.size hpos
  have hb2 := Int.tmod_lt_of_pos n hpos
  have hem := emod_of_tmod n q.size hpos
  have hs1 : ¬ q.size ≤ 1 := by omega
  unfold ConDequeue.Rotate
  rw [if_neg hs1]
  dsimp only
  by_cases h0 : n.tmod q.size = 0
  · rw [if_pos h0]
    rw [h0] at hem
    simp only [le_refl, if_true] at hem
    refine ⟨q, rfl, ?_, rfl⟩
    rw [hem]; simpa using h
  rw [if_neg h0]
  by_cases hfull : q.head = q.tail
  · rw [if_pos hfull]
    have hsc : q.size = q.cap := (hv.full_iff hpos).mp hfull
    refine ⟨_, rfl, ⟨?_, ?_, ?_⟩, rfl⟩
    · refine ⟨hv.pow, hv.minCap, hv.len, hv.size_nonneg, hv.size_le, ?_, ?_, ?_⟩ <;>
        dsimp only <;> rw [hv.mask]
      · exact Int.emod_nonneg _ (ne_of_gt hcp)
      · exact Int.emod_lt_of_pos _ hcp
      · rw [hv.mask, hsc, Int.add_emod_self, Int.emod_emod, hfull]
    · simp only [List.length_rotate]; exact hsz
    · intro i hi
      simp only [List.length_rotate] at hi
      dsimp only
      rw [List.getElem?_rotate hi, hv.mask, Int.emod_add_emod]
      have hlt : (i + (n % q.size).toNat) % l.length < l.length := Nat.mod_lt _ (by omega)
      rw [← h.2.2 _ hlt]
      congr 1
      have hm0 : 0 ≤ n % q.size := Int.emod_nonneg _ (by omega)
      rw [Int.natCast_mod, ← hsz, Nat.cast_add, Int.toNat_of_nonneg hm0, hsc,
        Int.add_emod_emod, ← add_assoc, Int.add_emod_emod]
      have e : q.head + (i : Int) + n
          = q.head + n.tmod q.cap + (i : Int) + q.cap * (n.tdiv q.cap) := by
        have := Int.tmod_add_tdiv n q.cap
        omega
      rw [e, Int.add_mul_emod_self_left]
  rw [if_neg hfull]
  have hlt : q.size < q.cap := by
    have := (hv.full_iff hpos).not.mp hfull
    omega
  by_cases hneg : n.tmod q.size < 0
  · rw [if_pos hneg]
    obtain ⟨q', l', h1, h2, h3, h4⟩ := h.rotateBackLoop (-n.tmod q.size).toNat hpos hlt
    refine ⟨q', h1, ?_, h4⟩
    have hlen : l'.length = l.length := by rw [← h3, List.length_rotate]
    have hk : (-n.tmod q.size).toNat + (n % q.size).toNat = l'.length := by
      rw [hem, if_neg (by omega)]
      omega
    have : l.rotate (n % q.size).toNat = l' := by
      rw [← h3, List.rotate_rotate, hk, List.rotate_length]
    rw [this]; exact h2
  · rw [if_neg hneg]
    obtain ⟨q', h1, h2, h3⟩ := h.rotateFrontLoop (n.tmod q.size).toNat hpos hlt
    refine ⟨q', h1, ?_, h3⟩
    rw [hem, if_pos (by omega)]
    exact h2

end ConDequeue

/-- C5: on a valid deque state of size `s`, for every integer `n`: if `s ≤ 1`
then `Rotate n` changes nothing; otherwise `Rotate n` returns, `Len()` is
still `s`, and for every `0 ≤ i < s` the new `At(i)` is the element that was at
logical index `(i + n) mod s` (non-negative remainder) before the call, on
the full-buffer path as well as on the element-moving path. `Rotate 0` and
`Rotate s` leave the state unchanged. -/
theorem Rotate_spec {α : Type} [Inhabited α] (q : ConDequeue α) (hv : q.Valid) (n : Int) :
    (q.size ≤ 1 → q.Rotate n = .ret q ()) ∧
    (1 < q.size → ∃ q', q.Rotate n = .ret q' () ∧ q'.Len = q.Len ∧
      ∀ i : Nat, (i : Int) < q.size →
        ∃ v, q'.At (i : Int) = .ret q' v ∧ q.At (((i : Int) + n) % q.size) = .ret q v) ∧
    q.Rotate 0 = .ret q () ∧ q.Rotate q.size = .ret q () := by
  refine ⟨fun h => by simp [ConDequeue.Rotate, h], fun hs => ?_, ?_, ?_⟩
  · have hr := hv.rep
    obtain ⟨q', h1, h2, _⟩ := hr.Rotate n hs
    have hsz : q.size = (q.toList.length : Int) := hr.2.1
    have hpos : (0 : Int) < q.size := by omega
    refine ⟨q', h1, ?_, ?_⟩
    · have := h2.2.1
      simp only [List.length_rotate] at this
      simp only [ConDequeue.Len]; omega
    · intro i hi
      have hi1 : i < q.toList.length := by omega
      have hi2 : i < (q.toList.rotate (n % q.size).toNat).length := by
        rw [List.length_rotate]; exact hi1
      have hj0 : 0 ≤ ((i : Int) + n) % q.size := Int.emod_nonneg _ (by omega)
      have hj1 : ((i : Int) + n) % q.size < q.size := Int.emod_lt_of_pos _ hpos
      have hj : (((i : Int) + n) % q.size).toNat < q.toList.length := by omega
      refine ⟨_, h2.At i hi2, ?_⟩
      have hat := hr.At _ hj
      rw [Int.toNat_of_nonneg hj0] at hat
      rw [hat]
      congr 1
      have e : q.toList[(((i : Int) + n) % q.size).toNat]? =
          (q.toList.rotate (n % q.size).toNat)[i]? := by
        rw [List.getElem?_rotate hi1]
        congr 1
        have hm0 : 0 ≤ n % q.size := Int.emod_nonneg _ (by omega)
        apply Int.ofNat_inj.mp
        rw [Int.toNat_of_nonneg hj0, Int.natCast_mod, Nat.cast_add,
          Int.toNat_of_nonneg hm0, ← hsz, Int.add_emod_emod]
      rw [List.getElem?_eq_getElem hj, List.getElem?_eq_getElem hi2] at e
      exact Option.some.inj e
  · by_cases h : q.size ≤ 1
    · simp [ConDequeue.Rotate, h]
    · simp [ConDequeue.Rotate, h]
  · by_cases h : q.size ≤ 1
    · simp [ConDequeue.Rotate, h]
    · simp [ConDequeue.Rotate, h]

/-- Rotating by `n` and then by the mathematical negation of `n` restores the
logical order of a non-empty valid deque state. -/
theorem Rotate_neg_restores {α : Type} [Inhabited α] (q : ConDequeue α) (hv : q.Valid)
    (hne : 0 < q.size) (n : Int) :
    ∃ q1 q2, q.Rotate n = .ret q1 () ∧ q1.Rotate (-n) = .ret q2 () ∧ q2.Len = q.Len ∧
      ∀ i : Nat, (i : Int) < q.Len →
        ∃ v, q2.At (i : Int) = .ret q2 v ∧ q.At (i : Int) = .ret q v := by
  have hr := hv.rep
  have hsz : q.size = (q.toList.length : Int) := hr.2.1
  by_cases hs : q.size ≤ 1
  · refine ⟨q, q, by simp [ConDequeue.Rotate, hs], by simp [ConDequeue.Rotate, hs], rfl, ?_⟩
    intro i hi
    simp only [ConDequeue.Len] at hi
    exact ⟨_, hr.At i (by omega), hr.At i (by omega)⟩
  · have hs1 : 1 < q.size := by omega
    obtain ⟨q1, h1, hr1, _⟩ := hr.Rotate n hs1
    have hsz1 : q1.size = q.size := by
      have := hr1.2.1
      simp only [List.length_rotate] at this
      omega
    obtain ⟨q2, h2, hr2, _⟩ := hr1.Rotate (-n) (by omega)
    have hback : (q.toList.rotate (n % q.size).toNat).rotate (-n % q1.size).toNat
        = q.toList := by
      rw [List.rotate_rotate, ← List.rotate_mod]
      have hm1 : 0 ≤ n % q.size := Int.emod_nonneg _ (by omega)
      have hm2 : 0 ≤ -n % q.size := Int.emod_nonneg _ (by omega)
      have hz : ((n % q.size).toNat + (-n % q1.size).toNat) % q.toList.length = 0 := by
        apply Int.ofNat_inj.mp
        rw [Int.natCast_mod, Nat.cast_add, hsz1, Int.toNat_of_nonneg hm1,
          Int.toNat_of_nonneg hm2, ← hsz, ← Int.add_emod]
        simp
      rw [hz, List.rotate_zero]
    rw [hback] at hr2
    refine ⟨q1, q2, h1, h2, ?_, ?_⟩
    · have := hr2.2.1
      simp only [ConDequeue.Len]; omega
    · intro i hi
      simp only [ConDequeue.Len] at hi
      exact ⟨_, hr2.At i (by omega), hr.At i (by omega)⟩

/-- Witness for C5 on the sample state (element-moving path), rotated by `-3`. -/
theorem Rotate_spec_witness :
    sampleDeque.Valid ∧ 1 < sampleDeque.size ∧
    ∃ q', sampleDeque.Rotate (-3) = .ret q' () ∧ q'.Len = sampleDeque.Len ∧
      ∀ i : Nat, (i : Int) < sampleDeque.size →
        ∃ v, q'.At (i : Int) = .ret q' v ∧
          sampleDeque.At (((i : Int) + (-3)) % sampleDeque.size) = .ret sampleDeque v :=
  ⟨sampleDeque_valid, by decide,
    (Rotate_spec sampleDeque sampleDeque_valid (-3)).2.1 (by decide)⟩

/-- C6 (amended): on a non-empty valid deque state, for every 64-bit `int` `n`
other than the minimum value `-2^63`, `Rotate n` followed by `Rotate (-n)` (Go
negation) restores the logical order: both calls return, `Len()` is unchanged
and every `At(i)`, `0 ≤ i < Len()`, returns the element it returned before. -/
theorem Rotate_inverse {α : Type} [Inhabited α] (q : ConDequeue α) (hv : q.Valid)
    (hne : 0 < q.size) (n : Int) (hmin : -2 ^ 63 < n) (hmax : n < 2 ^ 63) :
    ∃ q1 q2, q.Rotate n = .ret q1 () ∧ q1.Rotate (goNeg n) = .ret q2 () ∧
      q2.Len = q.Len ∧
      ∀ i : Nat, (i : Int) < q.Len →
        ∃ v, q2.At (i : Int) = .ret q2 v ∧ q.At (i : Int) = .ret q v := by
  have e : goNeg n = -n := wrap64_of_range (-n) (by omega) (by omega)
  rw [e]
  exact Rotate_neg_restores q hv hne n

/-- Witness for C6 (amended) on the sample state, rotated by `5` and back. -/
theorem Rotate_inverse_witness :
    sampleDeque.Valid ∧ 0 < sampleDeque.size ∧ -2 ^ 63 < (5 : Int) ∧ (5 : Int) < 2 ^ 63 ∧
    ∃ q1 q2, sampleDeque.Rotate 5 = .ret q1 () ∧ q1.Rotate (goNeg 5) = .ret q2 () ∧
      q2.Len = sampleDeque.Len ∧
      ∀ i : Nat, (i : Int) < sampleDeque.Len →
        ∃ v, q2.At (i : Int) = .ret q2 v ∧ sampleDeque.At (i : Int) = .ret sampleDeque v :=
  ⟨sampleDeque_valid, by decide, by decide, by decide,
    Rotate_inverse sampleDeque sampleDeque_valid (by decide) 5 (by decide) (by decide)⟩

theorem threeDeque_valid : threeDeque.Valid :=
  ⟨⟨5, rfl⟩, by decide, rfl, by decide, by decide, by decide, by decide, by decide⟩

/-- C6 as stated fails: for the minimum `int` `n = -2^63` the Go negation `-n`
is `n` again, and on the valid three-element sample state `[1, 2, 3]` the calls
`Rotate n`, `Rotate (-n)` each rotate by `-2` and leave `[3, 1, 2]`: `At(0)` was
`1` and is `3` afterwards. -/
theorem Rotate_inverse_min_int :
    threeDeque.Valid ∧ 0 < threeDeque.size ∧ goNeg (-2 ^ 63) = -2 ^ 63 ∧
    ∃ q1 q2, threeDeque.Rotate (-2 ^ 63) = .ret q1 () ∧
      q1.Rotate (goNeg (-2 ^ 63)) = .ret q2 () ∧
      threeDeque.toList = [some 1, some 2, some 3] ∧
      q2.toList = [some 3, some 1, some 2] ∧
      threeDeque.At 0 = .ret threeDeque (some 1) ∧ q2.At 0 = .ret q2 (some 3) :=
  ⟨threeDeque_valid, by decide, by decide,
    (threeDeque.Rotate (-2 ^ 63)).state,
    ((threeDeque.Rotate (-2 ^ 63)).state.Rotate (goNeg (-2 ^ 63))).state,
    by decide, by decide, by decide, by decide, by decide, by decide⟩

namespace ConLimitQueue

variable {α : Type} [Inhabited α]

/-- The copy loop of `NPop` writes the first `k` queue elements into
`elems[i .. i+k)` and removes them from the queue. -/
theorem npopLoop_spec : ∀ (k i : Nat) (s : ConLimitQueue α) (elems : List α),
    k ≤ s.q.length → i + k ≤ elems.length →
    npopLoop k (i : Int) s elems =
      .done { s with q := s.q.drop k } (elems.take i ++ s.q.take k ++ elems.drop (i + k)) := by
  intro k
  induction k with
  | zero =>
    intro i s elems _ _
    simp [npopLoop]
  | succ k ih =>
    intro i s elems hk hi
    obtain ⟨q, cap⟩ := s
    cases q with
    | nil => simp at hk
    | cons x d =>
      have hset : setI elems (i : Int) x = some (elems.set i x) := by
        rw [setI_eq_some _ _ _ (by omega) (by omega)]; simp
      have hcast : ((i : Int) + 1) = ((i + 1 : Nat) : Int) := by push_cast; rfl
      simp only [npopLoop, Deque.PopFront, hset, hcast]
      rw [ih (i + 1) _ _ (by simpa using hk) (by simp; omega)]
      simp only [List.drop_succ_cons, List.take_succ_cons]
      congr 1
      have h1 : (elems.set i x).take (i + 1) = elems.take i ++ [x] := by
        apply List.ext_getElem?
        intro j
        simp only [List.getElem?_take, List.getElem?_set, List.getElem?_append,
          List.length_take]
        by_cases hj : j < i
        · have : ¬ i = j := by omega
          have h2 : j < i + 1 := by omega
          have h3 : j < min i elems.length := by omega
          simp [hj, this, h2, h3]
        · by_cases hji : j = i
          · subst hji
            have h3 : ¬ j < min j elems.length := by omega
            have h4 : j < elems.length := by omega
            have h5 : j - min j elems.length = 0 := by omega
            simp [h3, h4, h5]
          · have h2 : ¬ j < i + 1 := by omega
            have h3 : ¬ j < min i elems.length := by omega
            have h5 : j - min i elems.length = j - i := by omega
            have h6 : j - i ≠ 0 := by omega
            simp [h2, h3, h5]
            omega
      have h2 : (elems.set i x).drop (i + 1 + k) = elems.drop (i + (k + 1)) := by
        rw [List.drop_set_of_lt _ _ (by omega)]
        congr 1; omega
      rw [h1, h2]
      simp

/-- What `NPop` does on a non-empty queue for a non-negative `want`. -/
theorem NPop_eq (s : ConLimitQueue α) (want : Int) (hne : s.q ≠ []) (hw : 0 ≤ want) :
    s.NPop want = .done { s with q := s.q.drop (min want.toNat s.q.length) }
      (s.q.take (min want.toNat s.q.length)) := by
  have hlen : 0 < s.q.length := List.length_pos.mpr hne
  have h0 : ¬ s.q.Len = 0 := by simp only [Deque.Len]; omega
  unfold ConLimitQueue.NPop
  rw [if_neg h0]
  dsimp only
  by_cases hgt : want > s.q.Len
  · simp only [Deque.Len] at hgt
    have hmin : min want.toNat s.q.length = s.q.length := by omega
    rw [if_pos (by simpa [Deque.Len] using hgt)]
    simp only [make, Deque.Len, Int.toNat_natCast]
    rw [if_pos (by omega)]
    dsimp only
    have := npopLoop_spec s.q.length 0 s (List.replicate s.q.length default) (le_refl _)
      (by simp)
    simp only [Nat.cast_zero] at this
    rw [this, hmin]
    simp
  · simp only [Deque.Len] at hgt
    have hmin : min want.toNat s.q.length = want.toNat := by omega
    rw [if_neg (by simpa [Deque.Len] using hgt)]
    simp only [make]
    rw [if_pos hw]
    dsimp only
    have := npopLoop_spec want.toNat 0 s (List.replicate want.toNat default) (by omega)
      (by simp)
    simp only [Nat.cast_zero] at this
    rw [this, hmin]
    simp

/-- The call `NPop want` panics on a non-empty queue when `want` is negative. -/
theorem NPop_neg (s : ConLimitQueue α) (want : Int) (hne : s.q ≠ []) (hw : want < 0) :
    s.NPop want = .fault s := by
  have hlen : 0 < s.q.length := List.length_pos.mpr hne
  have h0 : ¬ s.q.Len = 0 := by simp only [Deque.Len]; omega
  have hgt : ¬ want > s.q.Len := by simp only [Deque.Len]; omega
  unfold ConLimitQueue.NPop
  rw [if_neg h0]
  dsimp only
  rw [if_neg hgt]
  simp only [make]
  rw [if_neg (by omega)]

/-- A returning `NPop` hands out a prefix of the queue and keeps the rest. -/
theorem NPop_done {s s' : ConLimitQueue α} {want : Int} {vs : List α}
    (h : s.NPop want = .done s' vs) : s.q = vs ++ s'.q ∧ s'.cap = s.cap := by
  by_cases hne : s.q = []
  · simp [ConLimitQueue.NPop, Deque.Len, hne] at h
  · by_cases hw : 0 ≤ want
    · rw [NPop_eq s want hne hw] at h
      simp only [Call.done.injEq] at h
      obtain ⟨rfl, rfl⟩ := h
      simp
    · rw [NPop_neg s want hne (by omega)] at h
      simp at h

/-- A returning `Pop` hands out the front element and keeps the rest. -/
theorem Pop_done {s s' : ConLimitQueue α} {v : α}
    (h : s.Pop = .done s' v) : s.q = v :: s'.q ∧ s'.cap = s.cap := by
  obtain ⟨q, cap⟩ := s
  cases q with
  | nil => simp [ConLimitQueue.Pop, Deque.Len] at h
  | cons x d =>
    simp only [ConLimitQueue.Pop, Deque.Len, Deque.PopFront, List.length_cons] at h
    rw [if_neg (by omega)] at h
    simp only [Call.done.injEq] at h
    obtain ⟨rfl, rfl⟩ := h
    simp

/-- A returning `Push` found room and appended its element. -/
theorem Push_done {s s' : ConLimitQueue α} {x : α} {u : Unit}
    (h : s.Push x = .done s' u) : s'.q = s.q ++ [x] ∧ s'.cap = s.cap ∧ s.q.Len < s.cap := by
  unfold ConLimitQueue.Push at h
  by_cases hc : s.q.Len ≥ s.cap
  · rw [if_pos hc] at h; simp at h
  · rw [if_neg hc] at h
    simp only [Call.done.injEq] at h
    obtain ⟨rfl, _⟩ := h
    exact ⟨rfl, rfl, by omega⟩

end ConLimitQueue

namespace Traced

variable {α : Type} [Inhabited α]

/-- One step keeps "returned ++ queue = pushed" and the capacity, and keeps
the length within the capacity. -/
theorem step_inv (t : Traced α) (op : QueueOp α)
    (h : t.returned ++ t.st.q = t.pushed) :
    (t.step op).returned ++ (t.step op).st.q = (t.step op).pushed ∧
    (t.step op).st.cap = t.st.cap ∧
    (t.st.Len ≤ t.st.cap → (t.step op).st.Len ≤ t.st.cap) := by
  cases op with
  | push x =>
    simp only [step]
    cases hp : t.st.Push x with
    | done s u =>
      obtain ⟨h1, h2, h3⟩ := ConLimitQueue.Push_done hp
      refine ⟨?_, h2, fun _ => ?_⟩
      · simp only [h1, ← h, List.append_assoc]
      · simp only [ConLimitQueue.Len, Deque.Len, h1, List.length_append,
          List.length_singleton] at h3 ⊢
        push_cast; omega
    | wait s => exact ⟨h, rfl, fun hl => hl⟩
    | fault s => exact ⟨h, rfl, fun hl => hl⟩
  | pop =>
    simp only [step]
    cases hp : t.st.Pop with
    | done s v =>
      obtain ⟨h1, h2⟩ := ConLimitQueue.Pop_done hp
      refine ⟨?_, h2, fun hl => ?_⟩
      · simp only [← h, h1, List.append_assoc, List.singleton_append]
      · simp only [ConLimitQueue.Len, Deque.Len, h1, List.length_cons] at hl ⊢
        push_cast at hl; omega
    | wait s => exact ⟨h, rfl, fun hl => hl⟩
    | fault s => exact ⟨h, rfl, fun hl => hl⟩
  | npop want =>
    simp only [step]
    cases hp : t.st.NPop want with
    | done s vs =>
      obtain ⟨h1, h2⟩ := ConLimitQueue.NPop_done hp
      refine ⟨?_, h2, fun hl => ?_⟩
      · simp only [← h, h1, List.append_assoc]
      · simp only [ConLimitQueue.Len, Deque.Len, h1, List.length_append] at hl ⊢
        push_cast at hl; omega
    | wait s => exact ⟨h, rfl, fun hl => hl⟩
    | fault s => exact ⟨h, rfl, fun hl => hl⟩

/-- The invariants along a whole run. -/
theorem foldl_inv (ops : List (QueueOp α)) : ∀ (t : Traced α),
    t.returned ++ t.st.q = t.pushed →
    (ops.foldl step t).returned ++ (ops.foldl step t).st.q = (ops.foldl step t).pushed ∧
    (ops.foldl step t).st.cap = t.st.cap ∧
    (t.st.Len ≤ t.st.cap → (ops.foldl step t).st.Len ≤ t.st.cap) := by
  induction ops with
  | nil => intro t h; exact ⟨h, rfl, fun hl => hl⟩
  | cons op ops ih =>
    intro t h
    obtain ⟨s1, s2, s3⟩ := step_inv t op h
    obtain ⟨i1, i2, i3⟩ := ih (t.step op) s1
    refine ⟨i1, by rw [List.foldl_cons, i2, s2], fun hl => ?_⟩
    rw [List.foldl_cons, ← s2]
    exact i3 (by rw [s2]; exact s3 hl)

end Traced

/-- C2: in every state reachable from `NewConLimitQueue c` by atomic Push,
Pop and NPop steps, the elements returned so far (in return order) followed
by the current queue contents are exactly the elements pushed so far, in push
order: removal is FIFO and nothing is lost or duplicated. -/
theorem fifo_no_loss {α : Type} [Inhabited α] (c : Int) (ops : List (QueueOp α)) :
    (Traced.exec c ops).returned ++ (Traced.exec c ops).st.q = (Traced.exec c ops).pushed :=
  (Traced.foldl_inv ops (Traced.init c) rfl).1

/-- C3: for every capacity argument `c ≥ 0` (0 replaced by the default 128),
in every state reachable by Push, Pop and NPop steps the capacity is the one
fixed at construction and `0 ≤ length ≤ capacity`; a Push appends exactly when
`length < capacity` and otherwise waits with the state unchanged; Pop and NPop
wait with the state unchanged when the queue is empty, so they remove only
when `length > 0`. -/
theorem length_within_capacity {α : Type} [Inhabited α] (c : Int) (hc : 0 ≤ c)
    (ops : List (QueueOp α)) :
    (Traced.exec c ops).st.cap = (if c = 0 then 128 else c) ∧
    0 ≤ (Traced.exec c ops).st.Len ∧
    (Traced.exec c ops).st.Len ≤ (Traced.exec c ops).st.cap ∧
    (∀ (s : ConLimitQueue α) (x : α),
      (s.Len < s.cap → s.Push x = .done { s with q := s.q ++ [x] } ()) ∧
      (s.cap ≤ s.Len → s.Push x = .wait s)) ∧
    (∀ (s : ConLimitQueue α), s.Len = 0 →
      s.Pop = .wait s ∧ ∀ want : Int, s.NPop want = .wait s) := by
  obtain ⟨_, h2, h3⟩ := Traced.foldl_inv ops (@Traced.init α c) rfl
  have hcap : (@Traced.init α c).st.cap = (if c = 0 then 128 else c) := rfl
  have hlen : (@Traced.init α c).st.Len ≤ (@Traced.init α c).st.cap := by
    rw [hcap]
    simp only [Traced.init, NewConLimitQueue, ConLimitQueue.Len, Deque.Len, List.length_nil]
    split <;> omega
  refine ⟨by rw [Traced.exec, h2, hcap], ?_, ?_, ?_, ?_⟩
  · simp [ConLimitQueue.Len, Deque.Len]
  · rw [Traced.exec, h2]; exact h3 hlen
  · intro s x
    refine ⟨fun h => ?_, fun h => ?_⟩
    · simp only [ConLimitQueue.Len] at h
      simp [ConLimitQueue.Push, not_le.mpr h, Deque.PushBack]
    · simp only [ConLimitQueue.Len] at h
      simp [ConLimitQueue.Push, h]
  · intro s h
    simp only [ConLimitQueue.Len] at h
    exact ⟨by simp [ConLimitQueue.Pop, h], fun want => by simp [ConLimitQueue.NPop, h]⟩

/-- Witness for C3: capacity 2, three pushes (the third waits), then a pop. -/
theorem length_within_capacity_witness :
    (0 : Int) ≤ 2 ∧
    (Traced.exec 2 [QueueOp.push (some 1), .push (some 2), .push (some 3), .pop]).st.cap
      = (if (2 : Int) = 0 then 128 else 2) ∧
    0 ≤ (Traced.exec 2 [QueueOp.push (some 1), .push (some 2), .push (some 3), .pop]).st.Len ∧
    (Traced.exec 2 [QueueOp.push (some 1), .push (some 2), .push (some 3), .pop]).st.Len ≤
      (Traced.exec 2 [QueueOp.push (some 1), .push (some 2), .push (some 3), .pop]).st.cap :=
  ⟨by decide,
    (length_within_capacity 2 (by decide)
      [QueueOp.push (some 1), .push (some 2), .push (some 3), .pop]).1,
    (length_within_capacity 2 (by decide)
      [QueueOp.push (some 1), .push (some 2), .push (some 3), .pop]).2.1,
    (length_within_capacity 2 (by decide)
      [QueueOp.push (some 1), .push (some 2), .push (some 3), .pop]).2.2.1⟩

/-- C9: on a queue holding `L ≥ 1` elements, for every `want ≥ 0`, `NPop want`
returns exactly the first `k = min want L` elements in order and leaves the
remaining ones in order; `Pop` returns the first element and leaves the rest,
as `NPop 1` does. -/
theorem NPop_Pop_spec {α : Type} [Inhabited α] (s : ConLimitQueue α) (hne : s.q ≠ [])
    (want : Int) (hw : 0 ≤ want) :
    s.NPop want = .done { s with q := s.q.drop (min want.toNat s.q.length) }
      (s.q.take (min want.toNat s.q.length)) ∧
    ∀ (e : α) (rest : List α), s.q = e :: rest →
      s.Pop = .done { s with q := rest } e ∧ s.NPop 1 = .done { s with q := rest } [e] := by
  refine ⟨ConLimitQueue.NPop_eq s want hne hw, ?_⟩
  intro e rest hq
  refine ⟨?_, ?_⟩
  · simp only [ConLimitQueue.Pop, Deque.Len, hq, Deque.PopFront, List.length_cons]
    rw [if_neg (by omega)]
  · rw [ConLimitQueue.NPop_eq s 1 hne (by decide), hq]
    simp

/-- Witness for C9: three elements, `want = 2`. -/
theorem NPop_Pop_spec_witness :
    ({ q := [some 1, some 2, some 3], cap := 128 } : ConLimitQueue (Option Nat)).q ≠ [] ∧
    (0 : Int) ≤ 2 ∧
    ({ q := [some 1, some 2, some 3], cap := 128 } : ConLimitQueue (Option Nat)).NPop 2 =
      .done { q := [some 3], cap := 128 } [some 1, some 2] :=
  ⟨by decide, by decide,
    (NPop_Pop_spec { q := [some 1, some 2, some 3], cap := 128 } (by decide) 2
      (by decide)).1⟩

/-- C10 fails on the code: `NPop(-1)` on a queue holding one element panics
(`make` with a negative length) instead of returning or waiting. -/
theorem NPop_negative_want_panics :
    ({ q := [some 7], cap := 128 } : ConLimitQueue (Option Nat)).NPop (-1) =
      .fault { q := [some 7], cap := 128 } := by
  decide

namespace ConDequeue

variable {α : Type} [Inhabited α]

theorem Rep.Front {q : ConDequeue α} {l : List α} {a : α} (h : q.Rep (a :: l)) :
    q.Front = .ret q a := by
  obtain ⟨hv, hs, hel⟩ := h
  simp only [List.length_cons] at hs
  have hsz : ¬ q.size ≤ 0 := by omega
  have hrd : getI q.buf q.head = some a := by
    have := hel 0 (by simp)
    simpa [Int.emod_eq_of_lt hv.head_nonneg hv.head_lt] using this
  rw [ConDequeue.Front, if_neg hsz]
  simp only [rd, hrd]

theorem Rep.Back {q : ConDequeue α} {l : List α} {a : α} (h : q.Rep (l ++ [a])) :
    q.Back = .ret q a := by
  obtain ⟨hv, hs, hel⟩ := h
  simp only [List.length_append, List.length_singleton] at hs hel
  have hsz : ¬ q.size ≤ 0 := by omega
  have hpe : (q.tail - 1) % q.cap = (q.head + (l.length : Int)) % q.cap := by
    rw [hv.tail_eq, emod_sub_emod_left]; congr 1; omega
  have hrd : getI q.buf ((q.tail - 1) % q.cap) = some a := by
    rw [hpe, hel l.length (by omega)]
    simp
  rw [ConDequeue.Back, if_neg hsz]
  simp only [rd, prev, hv.mask, hrd]

end ConDequeue

/-- C11: on a valid deque state with contents `e_0 .. e_(s-1)`, `FPush x`
returns and then `Len() = s + 1`, `Front() = x` and `At(i + 1) = e_i` for every
`i < s`; `BPush x` returns and then `Len() = s + 1`, `Back() = x` and
`At(i) = e_i` for every `i < s`; also when the push grows the buffer. -/
theorem push_postconditions {α : Type} [Inhabited α] (q : ConDequeue α) (hv : q.Valid)
    (x : α) :
    (∃ q', q.FPush x = .ret q' () ∧ q'.Len = q.Len + 1 ∧ q'.Front = .ret q' x ∧
      ∀ i : Nat, (i : Int) < q.Len →
        ∃ v, q.At (i : Int) = .ret q v ∧ q'.At ((i : Int) + 1) = .ret q' v) ∧
    (∃ q', q.BPush x = .ret q' () ∧ q'.Len = q.Len + 1 ∧ q'.Back = .ret q' x ∧
      ∀ i : Nat, (i : Int) < q.Len →
        ∃ v, q.At (i : Int) = .ret q v ∧ q'.At (i : Int) = .ret q' v) := by
  have hr := hv.rep
  have hsz : q.size = (q.toList.length : Int) := hr.2.1
  constructor
  · obtain ⟨q', h1, h2⟩ := hr.FPush x
    refine ⟨q', h1, ?_, h2.Front, ?_⟩
    · have := h2.2.1
      simp only [List.length_cons] at this
      simp only [ConDequeue.Len]; push_cast at this; omega
    · intro i hi
      simp only [ConDequeue.Len] at hi
      have hi1 : i < q.toList.length := by omega
      refine ⟨_, hr.At i hi1, ?_⟩
      have := h2.At (i + 1) (by simp; omega)
      simpa using this
  · obtain ⟨q', h1, h2⟩ := hr.BPush x
    refine ⟨q', h1, ?_, h2.Back, ?_⟩
    · have := h2.2.1
      simp only [List.length_append, List.length_singleton] at this
      simp only [ConDequeue.Len]; push_cast at this; omega
    · intro i hi
      simp only [ConDequeue.Len] at hi
      have hi1 : i < q.toList.length := by omega
      refine ⟨_, hr.At i hi1, ?_⟩
      have := h2.At i (by simp; omega)
      simpa [List.getElem_append_left hi1] using this

/-- Witness for C11 on the sample state (two elements, wrapped around). -/
theorem push_postconditions_witness :
    sampleDeque.Valid ∧
    (∃ q', sampleDeque.FPush (some 7) = .ret q' () ∧ q'.Len = sampleDeque.Len + 1 ∧
      q'.Front = .ret q' (some 7) ∧
      ∀ i : Nat, (i : Int) < sampleDeque.Len →
        ∃ v, sampleDeque.At (i : Int) = .ret sampleDeque v ∧
          q'.At ((i : Int) + 1) = .ret q' v) :=
  ⟨sampleDeque_valid, (push_postconditions sampleDeque sampleDeque_valid (some 7)).1⟩

/-- C12: on a valid deque state, for `0 ≤ i < Len()`, `Set i x` returns and
then `At(i)` returns `x`, `At(j)` returns what it returned before for every
other `j` in `[0, Len())`, and `Len()`, head, tail and capacity are
unchanged. -/
theorem Set_frame {α : Type} [Inhabited α] (q : ConDequeue α) (hv : q.Valid)
    (i : Int) (hi0 : 0 ≤ i) (hi : i < q.Len) (x : α) :
    ∃ q', q.Set i x = .ret q' () ∧ q'.At i = .ret q' x ∧
      (∀ j : Int, 0 ≤ j → j < q.Len → j ≠ i →
        ∃ v, q.At j = .ret q v ∧ q'.At j = .ret q' v) ∧
      q'.Len = q.Len ∧ q'.head = q.head ∧ q'.tail = q.tail ∧ q'.cap = q.cap := by
  simp only [ConDequeue.Len] at hi
  have hcp := hv.cap_pos
  have hsl := hv.size_le
  have hp0 : 0 ≤ (q.head + i) % q.cap := Int.emod_nonneg _ (ne_of_gt hcp)
  have hp1 : (q.head + i) % q.cap < q.buf.length := by
    rw [hv.len]; exact Int.emod_lt_of_pos _ hcp
  have hc : ¬ (i < 0 ∨ i ≥ q.size) := by omega
  refine ⟨{ q with buf := q.buf.set ((q.head + i) % q.cap).toNat x }, ?_, ?_, ?_,
    rfl, rfl, rfl, rfl⟩
  · rw [ConDequeue.Set, if_neg hc, hv.mask]
    simp only [ConDequeue.wr, setI_eq_some _ _ _ hp0 hp1]
  · rw [ConDequeue.At]
    dsimp only
    rw [if_neg hc, hv.mask]
    simp only [ConDequeue.rd, getI_set_same _ _ _ hp0 hp1]
  · intro j hj0 hj hne
    simp only [ConDequeue.Len] at hj
    have hcj : ¬ (j < 0 ∨ j ≥ q.size) := by omega
    obtain ⟨v, hv2⟩ := hv.slot (q.head + j)
    have hidx : (q.head + j) % q.cap ≠ (q.head + i) % q.cap := by
      intro hcon
      have := emod_inj _ _ _ hcp hcon (by omega) (by omega)
      omega
    refine ⟨v, ?_, ?_⟩
    · rw [ConDequeue.At, if_neg hcj, hv.mask]
      simp only [ConDequeue.rd, hv2]
    · rw [ConDequeue.At]
      dsimp only
      rw [if_neg hcj, hv.mask]
      simp only [ConDequeue.rd, getI_set_other _ _ _ _ hp0 hidx, hv2]

/-- Witness for C12 on the sample state: overwrite the second element. -/
theorem Set_frame_witness :
    sampleDeque.Valid ∧ (0 : Int) ≤ 1 ∧ (1 : Int) < sampleDeque.Len ∧
    ∃ q', sampleDeque.Set 1 (some 9) = .ret q' () ∧ q'.At 1 = .ret q' (some 9) ∧
      (∀ j : Int, 0 ≤ j → j < sampleDeque.Len → j ≠ 1 →
        ∃ v, sampleDeque.At j = .ret sampleDeque v ∧ q'.At j = .ret q' v) ∧
      q'.Len = sampleDeque.Len ∧ q'.head = sampleDeque.head ∧
      q'.tail = sampleDeque.tail ∧ q'.cap = sampleDeque.cap :=
  ⟨sampleDeque_valid, by decide, by decide,
    Set_frame sampleDeque sampleDeque_valid 1 (by decide) (by decide) (some 9)⟩

namespace ConDequeue

variable {α : Type} [Inhabited α]

/-- Size and capacity after a returning `resize`. -/
theorem resize_shape {q q' : ConDequeue α} {b : Bool} {u : Unit}
    (h : q.resize b = .ret q' u) :
    q'.size = q.size ∧
    q'.cap = (if b = true ∧ q.cap = _MinCap then q.cap
      else if b = true then q.cap / 2 else q.cap * 2) := by
  unfold ConDequeue.resize at h
  by_cases hc : b = true ∧ q.cap = _MinCap
  · rw [if_pos hc] at h
    simp only [Outcome.ret.injEq] at h
    obtain ⟨rfl, _⟩ := h
    simp [hc]
  · rw [if_neg hc] at h
    rw [if_neg hc]
    dsimp only at h
    split at h
    · simp at h
    · split at h
      · split at h
        · simp at h
        · simp only [Outcome.ret.injEq] at h
          obtain ⟨rfl, _⟩ := h
          exact ⟨rfl, rfl⟩
      · split at h
        · simp at h
        · split at h
          · simp at h
          · simp only [Outcome.ret.injEq] at h
            obtain ⟨rfl, _⟩ := h
            exact ⟨rfl, rfl⟩

/-- Size and capacity after a returning `shrinkIfNeeded`. -/
theorem shrinkIfNeeded_shape {q q' : ConDequeue α} {u : Unit}
    (h : q.shrinkIfNeeded = .ret q' u) :
    q'.size = q.size ∧
    q'.cap = (if q.cap ≥ _MinShrinkThreshold ∧ q.cap ≥ q.size * 4 then q.cap / 2
      else q.cap) := by
  unfold ConDequeue.shrinkIfNeeded at h
  by_cases hc : q.cap ≥ _MinShrinkThreshold ∧ q.cap ≥ q.size * 4
  · rw [if_pos hc] at h
    rw [if_pos hc]
    obtain ⟨h1, h2⟩ := resize_shape h
    have hne : ¬ (true = true ∧ q.cap = _MinCap) := by
      have := hc.1
      simp only [_MinShrinkThreshold, _MinCap] at this ⊢
      omega
    rw [if_neg hne] at h2
    exact ⟨h1, by simpa using h2⟩
  · rw [if_neg hc] at h
    rw [if_neg hc]
    simp only [Outcome.ret.injEq] at h
    obtain ⟨rfl, _⟩ := h
    exact ⟨rfl, rfl⟩

/-- A returning `FPush` is `growIfNeeded` followed by one more element. -/
theorem FPush_shape {q q1 q2 : ConDequeue α} {x : α} {u : Unit}
    (hg : q.growIfNeeded = .ret q1 ()) (h : q.FPush x = .ret q2 u) :
    q2.cap = q1.cap ∧ q2.size = q1.size + 1 := by
  unfold ConDequeue.FPush at h
  rw [hg] at h
  simp only [Outcome.andThen, wr] at h
  split at h
  · rename_i hw
    split at hw
    · simp only [Outcome.ret.injEq] at hw h
      obtain ⟨rfl, _⟩ := hw
      obtain ⟨rfl, _⟩ := h
      exact ⟨rfl, rfl⟩
    · simp at hw
  · simp at h

/-- A returning `BPush` is `growIfNeeded` followed by one more element. -/
theorem BPush_shape {q q1 q2 : ConDequeue α} {x : α} {u : Unit}
    (hg : q.growIfNeeded = .ret q1 ()) (h : q.BPush x = .ret q2 u) :
    q2.cap = q1.cap ∧ q2.size = q1.size + 1 := by
  unfold ConDequeue.BPush at h
  rw [hg] at h
  simp only [Outcome.andThen, wr] at h
  split at h
  · rename_i hw
    split at hw
    · simp only [Outcome.ret.injEq] at hw h
      obtain ⟨rfl, _⟩ := hw
      obtain ⟨rfl, _⟩ := h
      exact ⟨rfl, rfl⟩
    · simp at hw
  · simp at h

/-- A returning `FPop` removes one element and then runs `shrinkIfNeeded`. -/
theorem FPop_shape {q q' : ConDequeue α} {v : α} (h : q.FPop = .ret q' v) :
    q'.size = q.size - 1 ∧
    q'.cap = (if q.cap ≥ _MinShrinkThreshold ∧ q.cap ≥ (q.size - 1) * 4 then q.cap / 2
      else q.cap) := by
  unfold ConDequeue.FPop at h
  split at h
  · simp at h
  · simp only [Outcome.andThen, rd, wr] at h
    split at h
    · rename_i s1 x1 hr
      split at hr
      · simp only [Outcome.ret.injEq] at hr
        obtain ⟨rfl, rfl⟩ := hr
        split at h
        · rename_i s2 u2 hw
          split at hw
          · simp only [Outcome.ret.injEq] at hw
            obtain ⟨rfl, _⟩ := hw
            split at h
            · rename_i s3 u3 hsh
              simp only [Outcome.ret.injEq] at h
              obtain ⟨rfl, _⟩ := h
              exact shrinkIfNeeded_shape hsh
            · simp at h
          · simp at hw
        · simp at h
      · simp at hr
    · simp at h

/-- A returning `BPop` removes one element and then runs `shrinkIfNeeded`. -/
theorem BPop_shape {q q' : ConDequeue α} {v : α} (h : q.BPop = .ret q' v) :
    q'.size = q.size - 1 ∧
    q'.cap = (if q.cap ≥ _MinShrinkThreshold ∧ q.cap ≥ (q.size - 1) * 4 then q.cap / 2
      else q.cap) := by
  unfold ConDequeue.BPop at h
  split at h
  · simp at h
  · simp only [Outcome.andThen, rd, wr] at h
    split at h
    · rename_i s1 x1 hr
      split at hr
      · simp only [Outcome.ret.injEq] at hr
        obtain ⟨rfl, rfl⟩ := hr
        split at h
        · rename_i s2 u2 hw
          split at hw
          · simp only [Outcome.ret.injEq] at hw
            obtain ⟨rfl, _⟩ := hw
            split at h
            · rename_i s3 u3 hsh
              simp only [Outcome.ret.injEq] at h
              obtain ⟨rfl, _⟩ := h
              exact shrinkIfNeeded_shape hsh
            · simp at h
          · simp at hw
        · simp at h
      · simp at hr
    · simp at h

end ConDequeue

/-- C14: on a valid, completely full state (`size == cap == C`, contents
starting at slot 0 or wrapped around), `growIfNeeded` reallocates the buffer to
length `2 * C` with the `C` elements in logical order in slots `0 .. C-1`,
`head = 0` and `tail = C`; `FPush x` and `BPush x` are that reallocation
followed by the insertion of `x`; afterwards the capacity is `2 * C`, the size
is `C + 1` and all `C + 1` elements are retrievable in order through `At`. -/
theorem grow_on_full {α : Type} [Inhabited α] (q : ConDequeue α) (hv : q.Valid)
    (hfull : q.size = q.cap) (x : α) :
    ∃ q1, q.growIfNeeded = .ret q1 () ∧ q1.cap = 2 * q.cap ∧
      (q1.buf.length : Int) = 2 * q.cap ∧ q1.head = 0 ∧ q1.tail = q.cap ∧
      q1.size = q.size ∧
      (∀ i : Nat, (i : Int) < q.cap →
        ∃ v, q.At (i : Int) = .ret q v ∧ getI q1.buf (i : Int) = some v) ∧
      (∃ q2, q.FPush x = .ret q2 () ∧ q.FPush x = q1.FPush x ∧ q2.cap = 2 * q.cap ∧
        q2.size = q.cap + 1 ∧ q2.toList = x :: q.toList ∧
        ∀ (i : Nat) (hi : i < q2.toList.length), q2.At (i : Int) = .ret q2 q2.toList[i]) ∧
      (∃ q2, q.BPush x = .ret q2 () ∧ q.BPush x = q1.BPush x ∧ q2.cap = 2 * q.cap ∧
        q2.size = q.cap + 1 ∧ q2.toList = q.toList ++ [x] ∧
        ∀ (i : Nat) (hi : i < q2.toList.length), q2.At (i : Int) = .ret q2 q2.toList[i]) := by
  have hr := hv.rep
  have hcp := hv.cap_pos
  obtain ⟨q1, hg, hr1, hlt, _, hcap⟩ := hr.growIfNeeded
  obtain ⟨hc1, hh1⟩ := hcap hfull
  have hv1 := hr1.1
  have hs1 : q1.size = q.size := by rw [hr1.2.1, hr.2.1]
  have hnf : ¬ q1.size = q1.cap := by omega
  have hg1 : q1.growIfNeeded = .ret q1 () := by
    rw [ConDequeue.growIfNeeded, if_neg hnf]
  have hF : q.FPush x = q1.FPush x := by
    rw [ConDequeue.FPush, ConDequeue.FPush, hg, hg1]
  have hB : q.BPush x = q1.BPush x := by
    rw [ConDequeue.BPush, ConDequeue.BPush, hg, hg1]
  refine ⟨q1, hg, by omega, by rw [hv1.len]; omega, hh1, ?_, hs1, ?_, ?_, ?_⟩
  · rw [hv1.tail_eq, hh1, hs1, hfull, zero_add]
    exact Int.emod_eq_of_lt (by omega) (by omega)
  · intro i hi
    have hi1 : i < q.toList.length := by have := hr.2.1; omega
    refine ⟨_, hr.At i hi1, ?_⟩
    have := hr1.2.2 i hi1
    rw [hh1, zero_add, Int.emod_eq_of_lt (by omega) (by omega)] at this
    rw [this, List.getElem?_eq_getElem hi1]
  · obtain ⟨q2, h1, h2⟩ := hr.FPush x
    obtain ⟨s1, s2⟩ := ConDequeue.FPush_shape hg h1
    refine ⟨q2, h1, hF, by omega, by omega, h2.toList_eq, ?_⟩
    intro i hi
    have := h2.At i (by rw [← h2.toList_eq]; exact hi)
    simpa [h2.toList_eq] using this
  · obtain ⟨q2, h1, h2⟩ := hr.BPush x
    obtain ⟨s1, s2⟩ := ConDequeue.BPush_shape hg h1
    refine ⟨q2, h1, hB, by omega, by omega, h2.toList_eq, ?_⟩
    intro i hi
    have := h2.At i (by rw [← h2.toList_eq]; exact hi)
    simpa [h2.toList_eq] using this

theorem fullDeque_valid : fullDeque.Valid :=
  ⟨⟨5, rfl⟩, by decide, rfl, by decide, by decide, by decide, by decide, by decide⟩

theorem quarterDeque_valid : quarterDeque.Valid :=
  ⟨⟨6, rfl⟩, by decide, rfl, by decide, by decide, by decide, by decide, by decide⟩

/-- Witness for C14 on the full sample state of capacity 32. -/
theorem grow_on_full_witness :
    fullDeque.Valid ∧ fullDeque.size = fullDeque.cap ∧
    ∃ q1, fullDeque.growIfNeeded = .ret q1 () ∧ q1.cap = 2 * fullDeque.cap ∧
      (q1.buf.length : Int) = 2 * fullDeque.cap ∧ q1.head = 0 ∧ q1.tail = fullDeque.cap ∧
      q1.size = fullDeque.size ∧
      (∀ i : Nat, (i : Int) < fullDeque.cap →
        ∃ v, fullDeque.At (i : Int) = .ret fullDeque v ∧ getI q1.buf (i : Int) = some v) ∧
      (∃ q2, fullDeque.FPush (some 99) = .ret q2 () ∧
        fullDeque.FPush (some 99) = q1.FPush (some 99) ∧ q2.cap = 2 * fullDeque.cap ∧
        q2.size = fullDeque.cap + 1 ∧ q2.toList = some 99 :: fullDeque.toList ∧
        ∀ (i : Nat) (hi : i < q2.toList.length), q2.At (i : Int) = .ret q2 q2.toList[i]) ∧
      (∃ q2, fullDeque.BPush (some 99) = .ret q2 () ∧
        fullDeque.BPush (some 99) = q1.BPush (some 99) ∧ q2.cap = 2 * fullDeque.cap ∧
        q2.size = fullDeque.cap + 1 ∧ q2.toList = fullDeque.toList ++ [some 99] ∧
        ∀ (i : Nat) (hi : i < q2.toList.length), q2.At (i : Int) = .ret q2 q2.toList[i]) :=
  ⟨fullDeque_valid, rfl, grow_on_full fullDeque fullDeque_valid rfl (some 99)⟩

/-- C17 (amended): on a valid state with `size ≥ 1`, `FPop` and `BPop` return,
and they change the capacity exactly when, after the removal, the capacity is
at least 65536 and at least four times the current size; the new capacity is
then half the old one, and in every other case the capacity is unchanged. -/
theorem pop_capacity {α : Type} [Inhabited α] (q : ConDequeue α) (hv : q.Valid)
    (hs : 1 ≤ q.size) :
    (∃ q' v, q.FPop = .ret q' v ∧ q'.size = q.size - 1 ∧
      (q'.cap ≠ q.cap ↔ (q.cap ≥ 65536 ∧ q.cap ≥ 4 * q'.size)) ∧
      (q'.cap ≠ q.cap → q'.cap = q.cap / 2)) ∧
    (∃ q' v, q.BPop = .ret q' v ∧ q'.size = q.size - 1 ∧
      (q'.cap ≠ q.cap ↔ (q.cap ≥ 65536 ∧ q.cap ≥ 4 * q'.size)) ∧
      (q'.cap ≠ q.cap → q'.cap = q.cap / 2)) := by
  have hcp := hv.cap_pos
  have key : ∀ (q' : ConDequeue α), q'.size = q.size - 1 →
      q'.cap = (if q.cap ≥ _MinShrinkThreshold ∧ q.cap ≥ (q.size - 1) * 4 then q.cap / 2
        else q.cap) →
      (q'.cap ≠ q.cap ↔ (q.cap ≥ 65536 ∧ q.cap ≥ 4 * q'.size)) ∧
      (q'.cap ≠ q.cap → q'.cap = q.cap / 2) := by
    intro q' h1 h2
    simp only [_MinShrinkThreshold] at h2
    by_cases hc : q.cap ≥ 65536 ∧ q.cap ≥ (q.size - 1) * 4
    · rw [if_pos hc] at h2
      refine ⟨⟨fun _ => ⟨hc.1, by omega⟩, fun _ => by omega⟩, fun _ => h2⟩
    · rw [if_neg hc] at h2
      refine ⟨⟨fun h => absurd h2 h, fun h => absurd ⟨h.1, by omega⟩ hc⟩,
        fun h => absurd h2 h⟩
  constructor
  · obtain ⟨q', v, h⟩ := hv.FPop_ok (by omega)
    obtain ⟨h1, h2⟩ := ConDequeue.FPop_shape h
    exact ⟨q', v, h, h1, key q' h1 h2⟩
  · obtain ⟨q', v, h⟩ := hv.BPop_ok (by omega)
    obtain ⟨h1, h2⟩ := ConDequeue.BPop_shape h
    exact ⟨q', v, h, h1, key q' h1 h2⟩

/-- Witness for C17 (amended) on the sample state of capacity 64. -/
theorem pop_capacity_witness :
    quarterDeque.Valid ∧ 1 ≤ quarterDeque.size ∧
    ∃ q' v, quarterDeque.FPop = .ret q' v ∧ q'.size = quarterDeque.size - 1 ∧
      (q'.cap ≠ quarterDeque.cap ↔ (quarterDeque.cap ≥ 65536 ∧ quarterDeque.cap ≥ 4 * q'.size)) ∧
      (q'.cap ≠ quarterDeque.cap → q'.cap = quarterDeque.cap / 2) :=
  ⟨quarterDeque_valid, by decide, (pop_capacity quarterDeque quarterDeque_valid (by decide)).1⟩

/-- C17 as stated fails: the valid sample state has capacity 64 and 17
elements; after `FPop` the capacity (64) exceeds 32 and equals four times the
size (16), yet the capacity is unchanged instead of becoming `2 * 16`. -/
theorem pop_at_quarter_keeps_capacity :
    quarterDeque.Valid ∧ 1 ≤ quarterDeque.size ∧
    ∃ q' v, quarterDeque.FPop = .ret q' v ∧ q'.cap = quarterDeque.cap ∧
      32 < q'.cap ∧ q'.cap = 4 * q'.size ∧ q'.cap ≠ 2 * q'.size :=
  ⟨quarterDeque_valid, by decide, quarterDeque.FPop.state, some 0, rfl, rfl,
    by decide, by decide, by decide⟩

namespace ConDequeue

variable {α : Type} [Inhabited α]

/-- The loop of `Clear`, started `k` slots before `tail`, exits after `k`
writes and changes nothing but the buffer contents. -/
theorem clearLoop_spec : ∀ (k fuel : Nat) (q : ConDequeue α) (cur : Int),
    (∃ j : Nat, q.cap = 2 ^ j) → 0 < q.cap → (q.buf.length : Int) = q.cap →
    0 ≤ q.tail → q.tail < q.cap → (k : Int) < q.cap → cur = (q.tail - (k : Int)) % q.cap →
    k < fuel →
    ∃ b, clearLoop fuel cur q = some (.ret { q with buf := b } ()) ∧
      b.length = q.buf.length := by
  intro k
  induction k with
  | zero =>
    intro fuel q cur _ hcp _ ht0 ht1 _ hcur hf
    obtain ⟨f, rfl⟩ : ∃ f, fuel = f + 1 := ⟨fuel - 1, by omega⟩
    have hct : cur = q.tail := by
      rw [hcur]; simp only [Nat.cast_zero, sub_zero]
      exact Int.emod_eq_of_lt ht0 ht1
    refine ⟨q.buf, ?_, rfl⟩
    rw [clearLoop, if_neg (by simpa using hct)]
  | succ k ih =>
    intro fuel q cur hpow hcp hlen ht0 ht1 hk hcur hf
    obtain ⟨f, rfl⟩ : ∃ f, fuel = f + 1 := ⟨fuel - 1, by omega⟩
    have hc0 : 0 ≤ cur := by rw [hcur]; exact Int.emod_nonneg _ (ne_of_gt hcp)
    have hc1 : cur < q.cap := by rw [hcur]; exact Int.emod_lt_of_pos _ hcp
    have hne : cur ≠ q.tail := by
      intro hcon
      rw [hcur] at hcon
      have ht : q.tail % q.cap = q.tail := Int.emod_eq_of_lt ht0 ht1
      rw [← ht] at hcon
      have := emod_inj _ _ _ hcp hcon (by rw [ht]; push_cast; omega)
        (by rw [ht]; push_cast; omega)
      rw [ht] at this
      push_cast at this
      omega
    have hmask : Int.land (cur + 1) (q.cap - 1) = (q.tail - (k : Int)) % q.cap := by
      obtain ⟨j, hj⟩ := hpow
      rw [hj, land_mask, ← hj, hcur, Int.emod_add_emod]
      congr 1; push_cast; ring
    obtain ⟨b, hb1, hb2⟩ := ih f ({ q with buf := q.buf.set cur.toNat default }) _ hpow hcp
      (by simp only [List.length_set]; exact hlen) ht0 ht1
      (show (k : Int) < q.cap by push_cast at hk; omega) rfl
      (by omega)
    refine ⟨b, ?_, by rw [hb2, List.length_set]⟩
    rw [clearLoop, if_pos hne]
    simp only [wr, setI_eq_some _ _ _ hc0 (by rw [hlen]; exact hc1), hmask]
    exact hb1

/-- More fuel does not change the result of the loop of `Clear`. -/
theorem clearLoop_mono : ∀ (fuel : Nat) (cur : Int) (q : ConDequeue α)
    (o : Outcome (ConDequeue α) Unit), clearLoop fuel cur q = some o →
    ∀ k : Nat, clearLoop (fuel + k) cur q = some o := by
  intro fuel
  induction fuel with
  | zero => intro cur q o h; simp [clearLoop] at h
  | succ f ih =>
    intro cur q o h k
    rw [Nat.add_right_comm, clearLoop]
    rw [clearLoop] at h
    by_cases hne : cur ≠ q.tail
    · rw [if_pos hne] at h ⊢
      cases hw : q.wr cur default with
      | ret q1 u =>
        rw [hw] at h
        exact ih _ _ _ h k
      | fault s =>
        rw [hw] at h
        exact h
    · rw [if_neg hne] at h ⊢
      exact h

/-- What `Clear` returns on a valid state, given fuel for `cap` iterations. -/
theorem Valid.Clear_eq {q : ConDequeue α} (hv : q.Valid) (fuel : Nat)
    (hf : q.cap ≤ (fuel : Int)) :
    ∃ b, q.Clear fuel = some (.ret { buf := b, cap := q.cap, size := 0, head := 0,
                                     tail := 0 } ()) ∧
      b.length = q.buf.length := by
  have hcp := hv.cap_pos
  have hk0 : 0 ≤ q.size % q.cap := Int.emod_nonneg _ (ne_of_gt hcp)
  have hk1 : q.size % q.cap < q.cap := Int.emod_lt_of_pos _ hcp
  have hhead : q.head = (q.tail - ((q.size % q.cap).toNat : Int)) % q.cap := by
    rw [Int.toNat_of_nonneg hk0, hv.tail_eq, emod_sub_emod_left]
    have e : q.head + q.size - q.size % q.cap = q.head + q.cap * (q.size / q.cap) := by
      have := Int.emod_add_ediv q.size q.cap
      omega
    rw [e, Int.add_mul_emod_self_left]
    exact (Int.emod_eq_of_lt hv.head_nonneg hv.head_lt).symm
  obtain ⟨b, hb1, hb2⟩ := clearLoop_spec (q.size % q.cap).toNat fuel q q.head hv.pow hcp
    hv.len hv.tail_nonneg hv.tail_lt (by rw [Int.toNat_of_nonneg hk0]; exact hk1) hhead
    (by omega)
  refine ⟨b, ?_, hb2⟩
  rw [ConDequeue.Clear, hb1]
  simp [Outcome.andThen]

end ConDequeue

/-- C13: on a valid deque state `Clear` returns (given fuel for `cap` loop
iterations) and afterwards the deque is empty, `Len() = 0`,
`head = tail = size = 0`, with the same capacity and buffer length as before. -/
theorem Clear_spec {α : Type} [Inhabited α] (q : ConDequeue α) (hv : q.Valid)
    (fuel : Nat) (hf : q.cap ≤ (fuel : Int)) :
    ∃ q', q.Clear fuel = some (.ret q' ()) ∧ q'.Len = 0 ∧ q'.head = 0 ∧ q'.tail = 0 ∧
      q'.size = 0 ∧ q'.cap = q.cap ∧ q'.buf.length = q.buf.length := by
  obtain ⟨b, h1, h2⟩ := hv.Clear_eq fuel hf
  exact ⟨_, h1, rfl, rfl, rfl, rfl, rfl, h2⟩

/-- Witness for C13 on the sample state (two elements, wrapped around). -/
theorem Clear_spec_witness :
    sampleDeque.Valid ∧ sampleDeque.cap ≤ ((32 : Nat) : Int) ∧
    ∃ q', sampleDeque.Clear 32 = some (.ret q' ()) ∧ q'.Len = 0 ∧ q'.head = 0 ∧
      q'.tail = 0 ∧ q'.size = 0 ∧ q'.cap = sampleDeque.cap ∧
      q'.buf.length = sampleDeque.buf.length :=
  ⟨sampleDeque_valid, by decide, Clear_spec sampleDeque sampleDeque_valid 32 (by decide)⟩

/-- C19 fails on the code: on the completely full sample state (`size == cap`,
`head == tail`) the loop of `Clear` runs zero times, so after `Clear` the
buffer still holds all 32 elements; only head, tail and size are reset. -/
theorem Clear_full_keeps_elements :
    fullDeque.Valid ∧ fullDeque.size = fullDeque.cap ∧
    ∀ fuel : Nat, fullDeque.Clear (fuel + 1) =
      some (.ret { buf := (List.range 32).map some, cap := 32, size := 0, head := 0,
                   tail := 0 } ()) :=
  ⟨fullDeque_valid, rfl, fun _ => rfl⟩

namespace ConDequeue

variable {α : Type} [Inhabited α]

theorem Valid.FPush_state {q : ConDequeue α} (hv : q.Valid) (x : α) :
    (q.FPush x).state.Valid := by
  obtain ⟨q', h1, h2⟩ := hv.rep.FPush x
  rw [h1]; exact h2.1

theorem Valid.BPush_state {q : ConDequeue α} (hv : q.Valid) (x : α) :
    (q.BPush x).state.Valid := by
  obtain ⟨q', h1, h2⟩ := hv.rep.BPush x
  rw [h1]; exact h2.1

theorem Valid.FPop_state {q : ConDequeue α} (hv : q.Valid) : q.FPop.state.Valid := by
  have hr := hv.rep
  cases hl : q.toList with
  | nil =>
    have hs : q.size ≤ 0 := by
      have := hr.2.1; rw [hl] at this; simp at this; omega
    rw [ConDequeue.FPop, if_pos hs]; exact hv
  | cons a t =>
    rw [hl] at hr
    obtain ⟨q', h1, h2⟩ := hr.FPop
    rw [h1]; exact h2.1

theorem Valid.BPop_state {q : ConDequeue α} (hv : q.Valid) : q.BPop.state.Valid := by
  have hr := hv.rep
  rcases List.eq_nil_or_concat q.toList with hl | ⟨t, a, hl⟩
  · have hs : q.size ≤ 0 := by
      have := hr.2.1; rw [hl] at this; simp at this; omega
    rw [ConDequeue.BPop, if_pos hs]; exact hv
  · rw [hl, List.concat_eq_append] at hr
    obtain ⟨q', h1, h2⟩ := hr.BPop
    rw [h1]; exact h2.1

theorem Valid.Set_state {q : ConDequeue α} (hv : q.Valid) (idx : Int) (x : α) :
    (q.Set idx x).state.Valid := by
  unfold ConDequeue.Set
  split
  · exact hv
  · simp only [wr]
    split
    · rename_i b hb
      unfold setI at hb
      split at hb
      · simp only [Option.some.injEq] at hb
        subst hb
        refine ⟨hv.pow, hv.minCap, ?_, hv.size_nonneg, hv.size_le, hv.head_nonneg,
          hv.head_lt, hv.tail_eq⟩
        simp only [Outcome.state, List.length_set]
        exact hv.len
      · simp at hb
    · exact hv

theorem Valid.Rotate_state {q : ConDequeue α} (hv : q.Valid) (n : Int) :
    (q.Rotate n).state.Valid := by
  by_cases hs : q.size ≤ 1
  · rw [ConDequeue.Rotate, if_pos hs]; exact hv
  · obtain ⟨q', h1, h2, _⟩ := hv.rep.Rotate n (by omega)
    rw [h1]; exact h2.1

theorem Valid.Clear_state {q : ConDequeue α} (hv : q.Valid) (fuel : Nat)
    (o : Outcome (ConDequeue α) Unit) (h : q.Clear fuel = some o) : o.state.Valid := by
  have hmono : q.Clear (fuel + q.cap.toNat) = some o := by
    unfold ConDequeue.Clear at h ⊢
    cases hl : clearLoop fuel q.head q with
    | none => rw [hl] at h; simp at h
    | some o0 =>
      rw [hl] at h
      rw [clearLoop_mono fuel q.head q o0 hl q.cap.toNat]
      exact h
  have hcp := hv.cap_pos
  obtain ⟨b, h1, h2⟩ := hv.Clear_eq (fuel + q.cap.toNat) (by push_cast; omega)
  rw [h1] at hmono
  have ho := Option.some.inj hmono
  rw [← ho]
  refine ⟨hv.pow, hv.minCap, ?_, ?_, ?_, ?_, ?_, ?_⟩ <;> simp only [Outcome.state]
  · rw [h2]; exact hv.len
  · omega
  · omega
  · omega
  · omega
  · simp

end ConDequeue

namespace DequeCall

variable {α : Type} [Inhabited α]

/-- Every call keeps the representation invariant. -/
theorem step_valid {q q' : ConDequeue α} (hv : q.Valid) (c : DequeCall α)
    (h : step q c = some q') : q'.Valid := by
  cases c with
  | fpush x => simp only [step, Option.some.injEq] at h; rw [← h]; exact hv.FPush_state x
  | bpush x => simp only [step, Option.some.injEq] at h; rw [← h]; exact hv.BPush_state x
  | fpop => simp only [step, Option.some.injEq] at h; rw [← h]; exact hv.FPop_state
  | bpop => simp only [step, Option.some.injEq] at h; rw [← h]; exact hv.BPop_state
  | set idx x => simp only [step, Option.some.injEq] at h; rw [← h]; exact hv.Set_state idx x
  | clear fuel =>
    simp only [step] at h
    cases hc : q.Clear fuel with
    | none => rw [hc] at h; simp at h
    | some o =>
      rw [hc] at h
      simp only [Option.map_some', Option.some.injEq] at h
      rw [← h]; exact hv.Clear_state fuel o hc
  | rotate n => simp only [step, Option.some.injEq] at h; rw [← h]; exact hv.Rotate_state n

theorem exec_valid (cs : List (DequeCall α)) : ∀ {q q' : ConDequeue α}, q.Valid →
    exec q cs = some q' → q'.Valid := by
  induction cs with
  | nil =>
    intro q q' hv h
    simp only [exec, Option.some.injEq] at h
    rw [← h]; exact hv
  | cons c cs ih =>
    intro q q' hv h
    simp only [exec] at h
    cases hs : step q c with
    | none => rw [hs] at h; simp at h
    | some q1 =>
      rw [hs] at h
      exact ih (step_valid hv c hs) h

end DequeCall

/-- C16: every state reached from `NewConDequeue c` (any `c`, so in particular
any `c ≥ 0`) through FPush, BPush, FPop, BPop, Set, Clear and Rotate calls
satisfies the representation invariant: the capacity is a power of two and at
least 32, the buffer length equals the capacity, `0 ≤ size ≤ cap`,
`0 ≤ head < cap`, `0 ≤ tail < cap`, `tail = (head + size) mod cap`, and
`head == tail` exactly when the deque is empty or completely full. -/
theorem reachable_invariant {α : Type} [Inhabited α] (c : Int) (fuel : Nat)
    (q0 : ConDequeue α) (hq : NewConDequeue fuel c = some q0)
    (calls : List (DequeCall α)) (q : ConDequeue α)
    (hex : DequeCall.exec q0 calls = some q) :
    (∃ k : Nat, q.cap = 2 ^ k) ∧ 32 ≤ q.cap ∧ (q.buf.length : Int) = q.cap ∧
    0 ≤ q.size ∧ q.size ≤ q.cap ∧ 0 ≤ q.head ∧ q.head < q.cap ∧
    0 ≤ q.tail ∧ q.tail < q.cap ∧ q.tail = (q.head + q.size) % q.cap ∧
    (q.head = q.tail ↔ (q.size = 0 ∨ q.size = q.cap)) := by
  have hv : q.Valid := DequeCall.exec_valid calls (NewConDequeue_rep fuel c q0 hq).1 hex
  refine ⟨hv.pow, hv.minCap, hv.len, hv.size_nonneg, hv.size_le, hv.head_nonneg, hv.head_lt,
    hv.tail_nonneg, hv.tail_lt, hv.tail_eq, ?_⟩
  by_cases hs : q.size = 0
  · have : q.tail = q.head := by
      rw [hv.tail_eq, hs, add_zero]
      exact Int.emod_eq_of_lt hv.head_nonneg hv.head_lt
    simp [hs, this]
  · have hpos : 0 < q.size := by have := hv.size_nonneg; omega
    rw [hv.full_iff hpos]
    simp [hs]

/-- Witness for C16: seven calls of all kinds on the deque made by
`NewConDequeue 0`. -/
theorem reachable_invariant_witness :
    NewConDequeue 0 0 = some emptyDeque ∧
    (∃ q, DequeCall.exec emptyDeque
      [.bpush (some 1), .bpush (some 2), .rotate 1, .set 0 (some 5), .bpop, .clear 40,
        .bpop] = some q) ∧
    ∀ q, DequeCall.exec emptyDeque
      [.bpush (some 1), .bpush (some 2), .rotate 1, .set 0 (some 5), .bpop, .clear 40,
        .bpop] = some q →
      (∃ k : Nat, q.cap = 2 ^ k) ∧ 32 ≤ q.cap ∧ (q.buf.length : Int) = q.cap ∧
      0 ≤ q.size ∧ q.size ≤ q.cap ∧ 0 ≤ q.head ∧ q.head < q.cap ∧
      0 ≤ q.tail ∧ q.tail < q.cap ∧ q.tail = (q.head + q.size) % q.cap ∧
      (q.head = q.tail ↔ (q.size = 0 ∨ q.size = q.cap)) :=
  ⟨rfl, ⟨_, rfl⟩, fun q h => reachable_invariant 0 0 emptyDeque rfl _ q h⟩

/-- C18 fails on the code: `NewCoDequeue 33` returns a buffer of length 33,
which is not a power of two, so masking is not reduction modulo the length
(`next 1` is `2 & 32 = 0`, not `2 mod 33 = 2`, and `next 0` is `0`); two `BPush` calls then leave `tail` at 0 and `At 0`, `At 1` both return
the second element. -/
theorem NewCoDequeue_not_power_of_two :
    ∃ q : CoDequeue (Option Nat), NewCoDequeue 33 = some q ∧
      q.buffer.length = 33 ∧ (¬ ∃ k : Nat, q.buffer.length = 2 ^ k) ∧
      q.next 1 = 0 ∧ ((1 : Int) + 1) % (q.buffer.length : Int) = 2 ∧
      q.next 0 = 0 ∧
      ∃ q1 q2, q.BPush (some 1) = .ret q1 () ∧ q1.BPush (some 2) = .ret q2 () ∧
        q2.cnt = 2 ∧ q2.tail = 0 ∧
        q2.At 0 = .ret q2 (some 2) ∧ q2.At 1 = .ret q2 (some 2) := by
  refine ⟨{ buffer := List.replicate 33 none, cnt := 0, head := 0, tail := 0 }, rfl, rfl,
    ?_, rfl, rfl, rfl, ?_⟩
  · rintro ⟨k, hk⟩
    simp only [List.length_replicate] at hk
    rcases Nat.lt_or_ge k 6 with h | h
    · interval_cases k <;> simp at hk
    · have : 2 ^ 6 ≤ 2 ^ k := Nat.pow_le_pow_right (by norm_num) h
      omega
  · exact ⟨_, _, rfl, rfl, rfl, rfl, rfl, rfl⟩

namespace DequeOp

variable {α : Type} [Inhabited α]

/-- Effect of a push on size and capacity. -/
theorem apply_push {q : ConDequeue α} (hv : q.Valid) (op : DequeOp α)
    (hp : isPush op = true) :
    ∃ q' v, apply q op = .ret q' v ∧ q'.Valid ∧ q'.size = q.size + 1 ∧
      q'.cap = (if q.size = q.cap then q.cap * 2 else q.cap) := by
  have hr := hv.rep
  obtain ⟨q1, hg, hr1, hlt, hsame, hgrow⟩ := hr.growIfNeeded
  have hs1 : q1.size = q.size := by rw [hr1.2.1, hr.2.1]
  have hc1 : q1.cap = (if q.size = q.cap then q.cap * 2 else q.cap) := by
    by_cases hf : q.size = q.cap
    · rw [if_pos hf]; exact (hgrow hf).1
    · rw [if_neg hf]
      have := hv.size_le
      rw [hsame (by omega)]
  cases op with
  | fpush x =>
    obtain ⟨q', h1, h2⟩ := hr.FPush x
    obtain ⟨s1, s2⟩ := ConDequeue.FPush_shape hg h1
    exact ⟨q', none, by simp [apply, h1, Outcome.andThen], h2.1, by omega, by rw [s1, hc1]⟩
  | bpush x =>
    obtain ⟨q', h1, h2⟩ := hr.BPush x
    obtain ⟨s1, s2⟩ := ConDequeue.BPush_shape hg h1
    exact ⟨q', none, by simp [apply, h1, Outcome.andThen], h2.1, by omega, by rw [s1, hc1]⟩
  | fpop => simp [isPush] at hp
  | bpop => simp [isPush] at hp

/-- Effect of a pop on size and capacity. -/
theorem apply_pop {q : ConDequeue α} (hv : q.Valid) (op : DequeOp α)
    (hp : isPush op = false) :
    (q.size ≤ 0 → apply q op = .fault q) ∧
    (1 ≤ q.size → ∃ q' v, apply q op = .ret q' v ∧ q'.Valid ∧ q'.size = q.size - 1 ∧
      q'.cap = (if q.cap ≥ 65536 ∧ q.cap ≥ (q.size - 1) * 4 then q.cap / 2 else q.cap)) := by
  cases op with
  | fpush x => simp [isPush] at hp
  | bpush x => simp [isPush] at hp
  | fpop =>
    refine ⟨fun h => by simp [apply, ConDequeue.FPop, h, Outcome.andThen], fun h => ?_⟩
    obtain ⟨q', v, h1⟩ := hv.FPop_ok (by omega)
    have hv' := hv.FPop_state
    rw [h1] at hv'
    obtain ⟨s1, s2⟩ := ConDequeue.FPop_shape h1
    exact ⟨q', some v, by simp [apply, h1, Outcome.andThen], hv', s1, s2⟩
  | bpop =>
    refine ⟨fun h => by simp [apply, ConDequeue.BPop, h, Outcome.andThen], fun h => ?_⟩
    obtain ⟨q', v, h1⟩ := hv.BPop_ok (by omega)
    have hv' := hv.BPop_state
    rw [h1] at hv'
    obtain ⟨s1, s2⟩ := ConDequeue.BPop_shape h1
    exact ⟨q', some v, by simp [apply, h1, Outcome.andThen], hv', s1, s2⟩

theorem alternates_tail {op : DequeOp α} {rest : List (DequeOp α)}
    (h : alternates (op :: rest) = true) :
    alternates rest = true ∧ ∀ op2 ∈ rest.head?, isPush op2 = !isPush op := by
  cases rest with
  | nil => simp [alternates]
  | cons op2 r =>
    simp only [alternates, Bool.and_eq_true, bne_iff_ne, ne_eq] at h
    refine ⟨h.2, ?_⟩
    intro o ho
    simp only [List.head?_cons, Option.mem_def, Option.some.injEq] at ho
    subst ho
    cases h1 : isPush op <;> cases h2 : isPush op2 <;> simp_all

theorem capTrace_ret {q q' : ConDequeue α} {op : DequeOp α} {v : Option α}
    (rest : List (DequeOp α)) (h : apply q op = .ret q' v) :
    capTrace q (op :: rest) = (q.cap, q'.cap) :: capTrace q' rest := by
  simp only [capTrace, h]

theorem capTrace_fault {q s : ConDequeue α} {op : DequeOp α}
    (rest : List (DequeOp α)) (h : apply q op = .fault s) :
    capTrace q (op :: rest) = [] := by
  simp only [capTrace, h]

end DequeOp

namespace DequeOp

variable {α : Type} [Inhabited α]

/-- Once the capacity is twice the low-water size `L` of an alternating run
(pushes at size `L`, pops at size `L + 1`), no further resize happens. -/
theorem capTrace_after_grow (L : Int) (hL : 1 ≤ L) : ∀ (ops : List (DequeOp α))
    (q : ConDequeue α), q.Valid → alternates ops = true → q.cap = 2 * L →
    (∀ op ∈ ops.head?, q.size = if isPush op = true then L else L + 1) →
    ∀ e ∈ capTrace q ops, e.1 = e.2 := by
  intro ops
  induction ops with
  | nil => intro q _ _ _ _ e he; simp [capTrace] at he
  | cons op rest ih =>
    intro q hv halt hcap hcfg e he
    have hsz := hcfg op (by simp)
    obtain ⟨halt2, hnext⟩ := alternates_tail halt
    by_cases hp : isPush op = true
    · rw [if_pos hp] at hsz
      obtain ⟨q', v, h1, hv', s1, s2⟩ := apply_push hv op hp
      rw [if_neg (by omega)] at s2
      rw [capTrace_ret rest h1] at he
      rcases List.mem_cons.mp he with rfl | he
      · exact s2.symm
      · refine ih q' hv' halt2 (by omega) ?_ e he
        intro op2 ho
        rw [hnext op2 ho, hp]
        simp only [Bool.not_true, Bool.false_eq_true, if_false]
        omega
    · have hp' : isPush op = false := by simpa using hp
      rw [if_neg hp] at hsz
      obtain ⟨q', v, h1, hv', s1, s2⟩ := (apply_pop hv op hp').2 (by omega)
      rw [if_neg (by omega)] at s2
      rw [capTrace_ret rest h1] at he
      rcases List.mem_cons.mp he with rfl | he
      · exact s2.symm
      · refine ih q' hv' halt2 (by omega) ?_ e he
        intro op2 ho
        rw [hnext op2 ho, hp']
        simp only [Bool.not_false, if_true]
        omega

/-- After a shrink the capacity stays at least `32768` and at least twice the
low-water size `L` of an alternating run, so no growth follows. -/
theorem capTrace_after_shrink (L : Int) : ∀ (ops : List (DequeOp α))
    (q : ConDequeue α), q.Valid → alternates ops = true → 2 * L ≤ q.cap → 32768 ≤ q.cap →
    (∀ op ∈ ops.head?, q.size = if isPush op = true then L else L + 1) →
    ∀ e ∈ capTrace q ops, e.2 ≤ e.1 := by
  intro ops
  induction ops with
  | nil => intro q _ _ _ _ _ e he; simp [capTrace] at he
  | cons op rest ih =>
    intro q hv halt hcap h32 hcfg e he
    have hsz := hcfg op (by simp)
    obtain ⟨halt2, hnext⟩ := alternates_tail halt
    by_cases hp : isPush op = true
    · rw [if_pos hp] at hsz
      obtain ⟨q', v, h1, hv', s1, s2⟩ := apply_push hv op hp
      rw [if_neg (by omega)] at s2
      rw [capTrace_ret rest h1] at he
      rcases List.mem_cons.mp he with rfl | he
      · exact le_of_eq s2
      · refine ih q' hv' halt2 (by omega) (by omega) ?_ e he
        intro op2 ho
        rw [hnext op2 ho, hp]
        simp only [Bool.not_true, Bool.false_eq_true, if_false]
        omega
    · have hp' : isPush op = false := by simpa using hp
      rw [if_neg hp] at hsz
      by_cases hs0 : q.size ≤ 0
      · rw [capTrace_fault rest ((apply_pop hv op hp').1 hs0)] at he
        simp at he
      · obtain ⟨q', v, h1, hv', s1, s2⟩ := (apply_pop hv op hp').2 (by omega)
        rw [capTrace_ret rest h1] at he
        have hq'cap : q'.cap ≤ q.cap ∧ 2 * L ≤ q'.cap ∧ 32768 ≤ q'.cap := by
          by_cases hc : q.cap ≥ 65536 ∧ q.cap ≥ (q.size - 1) * 4
          · rw [if_pos hc] at s2; omega
          · rw [if_neg hc] at s2; omega
        rcases List.mem_cons.mp he with rfl | he
        · exact hq'cap.1
        · refine ih q' hv' halt2 hq'cap.2.1 hq'cap.2.2 ?_ e he
          intro op2 ho
          rw [hnext op2 ho, hp']
          simp only [Bool.not_false, if_true]
          omega

/-- An alternating run with low-water size `L` never contains both a growth
and a shrink. -/
theorem capTrace_no_oscillation (L : Int) : ∀ (ops : List (DequeOp α))
    (q : ConDequeue α), q.Valid → alternates ops = true →
    (∀ op ∈ ops.head?, q.size = if isPush op = true then L else L + 1) →
    ¬ ((∃ e ∈ capTrace q ops, e.1 < e.2) ∧ (∃ e ∈ capTrace q ops, e.2 < e.1)) := by
  intro ops
  induction ops with
  | nil => intro q _ _ _ h; obtain ⟨⟨e, he, _⟩, _⟩ := h; simp [capTrace] at he
  | cons op rest ih =>
    intro q hv halt hcfg
    have hsz := hcfg op (by simp)
    obtain ⟨halt2, hnext⟩ := alternates_tail halt
    have h32 := hv.minCap
    by_cases hp : isPush op = true
    · rw [if_pos hp] at hsz
      obtain ⟨q', v, h1, hv', s1, s2⟩ := apply_push hv op hp
      have hcfg' : ∀ op2 ∈ rest.head?, q'.size = if isPush op2 = true then L else L + 1 := by
        intro op2 ho
        rw [hnext op2 ho, hp]
        simp only [Bool.not_true, Bool.false_eq_true, if_false]
        omega
      rw [capTrace_ret rest h1]
      by_cases hf : q.size = q.cap
      · -- growth now: nothing changes afterwards
        rw [if_pos hf] at s2
        have hstab := capTrace_after_grow L (by omega) rest q' hv' halt2 (by omega) hcfg'
        rintro ⟨_, e, he, hlt⟩
        rcases List.mem_cons.mp he with rfl | he
        · simp only at hlt; omega
        · have := hstab e he; omega
      · rw [if_neg hf] at s2
        rintro ⟨⟨e1, he1, hlt1⟩, e2, he2, hlt2⟩
        have hne1 : e1 ∈ capTrace q' rest := by
          rcases List.mem_cons.mp he1 with rfl | he
          · simp only at hlt1; omega
          · exact he
        have hne2 : e2 ∈ capTrace q' rest := by
          rcases List.mem_cons.mp he2 with rfl | he
          · simp only at hlt2; omega
          · exact he
        exact ih q' hv' halt2 hcfg' ⟨⟨e1, hne1, hlt1⟩, e2, hne2, hlt2⟩
    · have hp' : isPush op = false := by simpa using hp
      rw [if_neg hp] at hsz
      by_cases hs0 : q.size ≤ 0
      · rw [capTrace_fault rest ((apply_pop hv op hp').1 hs0)]
        rintro ⟨⟨e, he, _⟩, _⟩
        simp at he
      · obtain ⟨q', v, h1, hv', s1, s2⟩ := (apply_pop hv op hp').2 (by omega)
        have hcfg' : ∀ op2 ∈ rest.head?,
            q'.size = if isPush op2 = true then L else L + 1 := by
          intro op2 ho
          rw [hnext op2 ho, hp']
          simp only [Bool.not_false, if_true]
          omega
        rw [capTrace_ret rest h1]
        by_cases hc : q.cap ≥ 65536 ∧ q.cap ≥ (q.size - 1) * 4
        · -- shrink now: no growth afterwards
          rw [if_pos hc] at s2
          have hmono := capTrace_after_shrink L rest q' hv' halt2 (by omega) (by omega) hcfg'
          rintro ⟨⟨e, he, hlt⟩, _⟩
          rcases List.mem_cons.mp he with rfl | he
          · simp only at hlt; omega
          · have := hmono e he; omega
        · rw [if_neg hc] at s2
          rintro ⟨⟨e1, he1, hlt1⟩, e2, he2, hlt2⟩
          have hne1 : e1 ∈ capTrace q' rest := by
            rcases List.mem_cons.mp he1 with rfl | he
            · simp only at hlt1; omega
            · exact he
          have hne2 : e2 ∈ capTrace q' rest := by
            rcases List.mem_cons.mp he2 with rfl | he
            · simp only at hlt2; omega
            · exact he
          exact ih q' hv' halt2 hcfg' ⟨⟨e1, hne1, hlt1⟩, e2, hne2, hlt2⟩

end DequeOp

open DequeOp

/-- C20: from any valid deque state, along any sequence of calls in which
pushes (FPush/BPush) and pops (FPop/BPop) strictly alternate, starting with
either, the capacity never both grows at some call and shrinks at some call:
the run never contains both a growth resize and a shrink resize.  In
particular (two-call sequences) a growing push is not followed by a shrinking
pop, nor a shrinking pop by a growing push. -/
theorem no_oscillation {α : Type} [Inhabited α] (q : ConDequeue α) (hv : q.Valid)
    (ops : List (DequeOp α)) (halt : alternates ops = true) :
    ¬ ((∃ e ∈ capTrace q ops, e.1 < e.2) ∧ (∃ e ∈ capTrace q ops, e.2 < e.1)) := by
  cases ops with
  | nil => rintro ⟨⟨e, he, _⟩, _⟩; simp [capTrace] at he
  | cons op rest =>
    refine capTrace_no_oscillation (if isPush op = true then q.size else q.size - 1)
      (op :: rest) q hv halt ?_
    intro op2 ho
    simp only [List.head?_cons, Option.mem_def, Option.some.injEq] at ho
    subst ho
    by_cases hp : isPush op = true
    · simp [hp]
    · simp [hp]

/-- Witness for C20: four alternating calls on the full sample state; the
first push grows the buffer from 32 to 64 and nothing shrinks it. -/
theorem no_oscillation_witness :
    fullDeque.Valid ∧ alternates [bpush (some 1), fpop, fpush (some 2), bpop] = true ∧
    capTrace fullDeque [bpush (some 1), fpop, fpush (some 2), bpop] =
      [(32, 64), (64, 64), (64, 64), (64, 64)] ∧
    ¬ ((∃ e ∈ capTrace fullDeque [bpush (some 1), fpop, fpush (some 2), bpop], e.1 < e.2) ∧
       (∃ e ∈ capTrace fullDeque [bpush (some 1), fpop, fpush (some 2), bpop], e.2 < e.1)) :=
  ⟨fullDeque_valid, rfl, rfl,
    no_oscillation fullDeque fullDeque_valid [bpush (some 1), fpop, fpush (some 2), bpop] rfl⟩

end ConcurrentQ
